import Mathlib

/-
Verification of the PBIR rename engine: the DAX expression rewriter
(`update_dax_expression`), the structural passes (`update_entity`,
`update_property`), the CSV rule loader (`load_csv_mapping`) and the
mapping resolver of `update_json_files_in_directory`.

The two source modules are embedded in namespaces `PU` (pbir_utils.py) and
`UA` (update_attribute_names_pbir.py) where they diverge; identical code is
shared.  Strings are modeled as `List Char`; the Python regular expressions
are embedded as explicit left-to-right scanners whose semantics follow the
CPython `re` engine on these patterns (a backreference to an unset group
fails, alternatives are tried left to right at each position, and `re.sub`
resumes scanning after the end of each match).  Python `\w` is modeled as
ASCII `[A-Za-z0-9_]`.  Python exceptions (TypeError / KeyError /
IndexError / AttributeError raised by the tree passes on malformed input)
are modeled with `Except Unit`.
-/

namespace PBIR

/-- The single-quote character (ASCII 39) used by the DAX rewriter. -/
def sq : Char := '\x27'

/-- Build a string containing single quotes: the bar character stands for a
single quote, so that quote-laden DAX literals can be written plainly. -/
def q (s : String) : String := String.mk (s.data.map (fun c => if c = '|' then sq else c))

/-- Python `\w` (ASCII restriction): letters, digits, underscore. -/
def isWordChar (c : Char) : Bool := c.isAlphanum || c = '_'

/-- Python `[\w\s]` (ASCII restriction). -/
def isWordSpace (c : Char) : Bool :=
  isWordChar c || c = ' ' || c = '\t' || c = '\n' || c = '\r' ||
    c = '\x0b' || c = '\x0c'

/-- The `\b` test used before an unquoted candidate: position 0 or a
non-word character before the match. -/
def prevBoundary : Option Char → Bool
  | none => true
  | some p => !(isWordChar p)

/-- Table maps: old table name to new table name (Python dict). -/
abbrev TableMap := List (String × String)

/-- First alternative of the table pattern
`(?<!\[)('+)?(\b[\w\s]+?\b)\1`: since a backreference to an unset group
fails in Python, this only matches a maximal run of `m ≥ 1` quotes, then a
maximal `[\w\s]` run starting and ending with a word character, then `m`
quotes again, and only when the previous character is not `[`.  Returns the
quote count, the matched name and the remaining input. -/
def tryA (prev : Option Char) (l : List Char) : Option (Nat × List Char × List Char) :=
  match l with
  | [] => none
  | c :: _ =>
    if c = sq ∧ prev ≠ some '[' then
      let m := (l.takeWhile (fun x => x = sq)).length
      let l1 := l.dropWhile (fun x => x = sq)
      let r := l1.takeWhile isWordSpace
      let l2 := l1.dropWhile isWordSpace
      match r.head?, r.getLast? with
      | some h, some g =>
        if isWordChar h ∧ isWordChar g ∧ l2.take m = List.replicate m sq then
          some (m, r, l2.drop m)
        else none
      | _, _ => none
    else none

/-- Second alternative of the table pattern `\b([\w]+)\b(?!\])`: a maximal
word run at a word boundary whose following character is not `]`. -/
def tryB (prev : Option Char) (l : List Char) : Option (List Char × List Char) :=
  match l with
  | [] => none
  | c :: _ =>
    if isWordChar c && prevBoundary prev then
      let w := l.takeWhile isWordChar
      let l1 := l.dropWhile isWordChar
      if l1.head? = some ']' then none else some (w, l1)
    else none

/-- `replace_table_name` on a quoted match: `quotes` are nonempty, so the
replacement keeps the original quoting. -/
def replTableQuoted (tm : TableMap) (m : Nat) (r : List Char) : List Char :=
  match tm.lookup (String.mk r) with
  | some nt => List.replicate m sq ++ nt.data ++ List.replicate m sq
  | none => List.replicate m sq ++ r ++ List.replicate m sq

/-- `replace_table_name` on an unquoted match: a replacement containing a
space forces single quotes. -/
def replTableBare (tm : TableMap) (w : List Char) : List Char :=
  match tm.lookup (String.mk w) with
  | some nt => if nt.data.contains ' ' then sq :: (nt.data ++ [sq]) else nt.data
  | none => w

/-- The table pass of `update_dax_expression`: `pattern.sub` over the
input, scanning left to right, trying the quoted alternative then the bare
alternative at each position.  `fuel` is spent once per step; since every
step consumes at least one character, starting with `fuel = input length`
realizes the unbounded scan (the fuel-exhausted clause is unreachable on a
nonempty input then). -/
def subTableAux (tm : TableMap) : Nat → Option Char → List Char → List Char
  | 0, _, l => l
  | _ + 1, _, [] => []
  | fuel + 1, prev, c :: rest =>
    match tryA prev (c :: rest) with
    | some (m, r, l2) => replTableQuoted tm m r ++ subTableAux tm fuel (some sq) l2
    | none =>
      match tryB prev (c :: rest) with
      | some (w, l1) => replTableBare tm w ++ subTableAux tm fuel (some (w.getLastD c)) l1
      | none => c :: subTableAux tm fuel (some c) rest

/-- Character class `[A-Za-z0-9_ ]` of the column pattern. -/
def isCls1 (c : Char) : Bool := c.isAlphanum || c = '_' || c = ' '

/-- Character class `[A-Za-z0-9_]` of the column pattern. -/
def isCls2 (c : Char) : Bool := c.isAlphanum || c = '_'

/-- Parse `\[([A-Za-z0-9_]+)\]` at the head of `l`: the bracketed column
run.  Returns the column characters and the remaining input. -/
def tryBracket (l : List Char) : Option (List Char × List Char) :=
  match l with
  | '[' :: l2 =>
    match l2.takeWhile isCls2, l2.dropWhile isCls2 with
    | _ :: _, ']' :: l4 => some (l2.takeWhile isCls2, l4)
    | _, _ => none
  | _ => none

/-- One match of the column pattern
`('[A-Za-z0-9_ ]+'?|[A-Za-z0-9_]+)\[([A-Za-z0-9_]+)\]` at the head of `l`:
returns the qualifier (group 1, quotes included), the column name and the
remaining input.  The quoted alternative takes a maximal `[A-Za-z0-9_ ]`
run after the opening quote and an optional closing quote. -/
def tryCol (l : List Char) : Option (List Char × List Char × List Char) :=
  match l with
  | c :: tl =>
    if c = sq then
      let r := tl.takeWhile isCls1
      let l1 := tl.dropWhile isCls1
      match r with
      | [] => none
      | _ :: _ =>
        match l1 with
        | q1 :: l1a =>
          if q1 = sq then
            match tryBracket l1a with
            | some (w, l4) => some (sq :: (r ++ [sq]), w, l4)
            | none => none
          else
            match tryBracket l1 with
            | some (w, l4) => some (sq :: r, w, l4)
            | none => none
        | [] => none
    else if isCls2 c then
      let r := (c :: tl).takeWhile isCls2
      let l1 := (c :: tl).dropWhile isCls2
      match tryBracket l1 with
      | some (w, l4) => some (r, w, l4)
      | none => none
    else none
  | [] => none

/-- Python `str.strip` with a single-quote argument: drop quotes from both
ends. -/
def stripQuotes (l : List Char) : List Char :=
  ((l.dropWhile (fun x => x = sq)).reverse.dropWhile (fun x => x = sq)).reverse

namespace PU

/-- Column maps of pbir_utils.py: `(table, column)` to the new column
name. -/
abbrev ColumnMap := List ((String × String) × String)

/-- `replace_column_name` of pbir_utils.py: on a hit the qualifier is
re-quoted when the (old) table name contains a space or the original
qualifier was quoted; the table name itself is unchanged. -/
def replCol (cm : ColumnMap) (tp w : List Char) : List Char :=
  let tn := stripQuotes tp
  match cm.lookup (String.mk tn, String.mk w) with
  | some newc =>
    let tpOut := if tn.contains ' ' || tp.head? = some sq then sq :: (tn ++ [sq]) else tn
    tpOut ++ '[' :: (newc.data ++ [']'])
  | none => tp ++ '[' :: (w ++ [']'])

end PU

namespace UA

/-- Column maps of update_attribute_names_pbir.py: `(table, column)` to the
new `(table, column)` pair. -/
abbrev ColumnMap := List ((String × String) × (String × String))

/-- `replace_column_name` of update_attribute_names_pbir.py: on a hit the
qualifier becomes the new table name, re-quoted when the new table name
contains a space or the original qualifier was quoted. -/
def replCol (cm : ColumnMap) (tp w : List Char) : List Char :=
  let tn := stripQuotes tp
  match cm.lookup (String.mk tn, String.mk w) with
  | some (newt, newc) =>
    let tpOut :=
      if newt.data.contains ' ' || tp.head? = some sq then sq :: (newt.data ++ [sq])
      else newt.data
    tpOut ++ '[' :: (newc.data ++ [']'])
  | none => tp ++ '[' :: (w ++ [']'])

end UA

/-- The column pass of `update_dax_expression` (pbir_utils.py): `re.sub`
over the input with `replace_column_name`, fueled like the table pass. -/
def PU.subColAux (cm : PU.ColumnMap) : Nat → List Char → List Char
  | 0, l => l
  | _ + 1, [] => []
  | fuel + 1, c :: rest =>
    match tryCol (c :: rest) with
    | some (tp, w, l4) => PU.replCol cm tp w ++ PU.subColAux cm fuel l4
    | none => c :: PU.subColAux cm fuel rest

/-- The column pass of `update_dax_expression`
(update_attribute_names_pbir.py). -/
def UA.subColAux (cm : UA.ColumnMap) : Nat → List Char → List Char
  | 0, l => l
  | _ + 1, [] => []
  | fuel + 1, c :: rest =>
    match tryCol (c :: rest) with
    | some (tp, w, l4) => UA.replCol cm tp w ++ UA.subColAux cm fuel l4
    | none => c :: UA.subColAux cm fuel rest

/-- `update_dax_expression` of pbir_utils.py: the table pass (when
`table_map` is truthy) followed by the column pass (when `column_map` is
truthy). -/
def PU.update_dax_expression (expression : String) (table_map : TableMap)
    (column_map : PU.ColumnMap) : String :=
  let e1 :=
    if table_map.isEmpty then expression
    else String.mk (subTableAux table_map expression.data.length none expression.data)
  if column_map.isEmpty then e1 else String.mk (PU.subColAux column_map e1.data.length e1.data)

/-- `update_dax_expression` of update_attribute_names_pbir.py. -/
def UA.update_dax_expression (expression : String) (table_map : TableMap)
    (column_map : UA.ColumnMap) : String :=
  let e1 :=
    if table_map.isEmpty then expression
    else String.mk (subTableAux table_map expression.data.length none expression.data)
  if column_map.isEmpty then e1 else String.mk (UA.subColAux column_map e1.data.length e1.data)

/-- Parsed JSON documents (`json.load` output).  Numbers are modeled as
integers. -/
inductive JSON where
  | null : JSON
  | bool : Bool → JSON
  | num : Int → JSON
  | str : String → JSON
  | arr : List JSON → JSON
  | obj : List (String × JSON) → JSON
  deriving Repr

mutual

/-- Decidable equality of JSON documents. -/
def jeq : JSON → JSON → Bool
  | .null, .null => true
  | .bool a, .bool b => a == b
  | .num a, .num b => a == b
  | .str a, .str b => a == b
  | .arr a, .arr b => jeqL a b
  | .obj a, .obj b => jeqO a b
  | _, _ => false

def jeqL : List JSON → List JSON → Bool
  | [], [] => true
  | a :: as1, b :: bs1 => jeq a b && jeqL as1 bs1
  | _, _ => false

def jeqO : List (String × JSON) → List (String × JSON) → Bool
  | [], [] => true
  | (k, v) :: as1, (k2, v2) :: bs1 => k == k2 && jeq v v2 && jeqO as1 bs1
  | _, _ => false

end

mutual

/-- Size measure on documents that ignores string contents (so that
renaming a string leaf preserves it). -/
def jsize : JSON → Nat
  | .arr xs => 1 + jsizeL xs
  | .obj kvs => 1 + jsizeO kvs
  | _ => 1

def jsizeL : List JSON → Nat
  | [] => 0
  | x :: xs => 1 + jsize x + jsizeL xs

def jsizeO : List (String × JSON) → Nat
  | [] => 0
  | (_, v) :: kvs => 1 + jsize v + jsizeO kvs

end

/-- Python truthiness of a JSON value. -/
def truthy : JSON → Bool
  | .null => false
  | .bool b => b
  | .num n => n != 0
  | .str s => s != ""
  | .arr xs => !xs.isEmpty
  | .obj kvs => !kvs.isEmpty

/-- Truthiness of an optional lookup result (`None` is falsy). -/
def truthyO : Option JSON → Bool
  | none => false
  | some v => truthy v

/-- Whether a JSON value is hashable in Python (usable as part of a dict
key): lists and dicts are not. -/
def hashableJ : JSON → Bool
  | .arr _ => false
  | .obj _ => false
  | _ => true

def hashableO : Option JSON → Bool
  | none => true
  | some v => hashableJ v

/-- In-place update of the value under the first occurrence of a key (a
Python dict holds each key once). -/
def setKey : List (String × JSON) → String → JSON → List (String × JSON)
  | [], _, _ => []
  | (k, v) :: rest, key, nv =>
    if k = key then (key, nv) :: rest else (k, v) :: setKey rest key nv

/-- Python substring test `needle in hay` on strings. -/
def isSubstrS (needle hay : String) : Bool :=
  hay.data.tails.any (fun t => needle.data.isPrefixOf t)

/-- Python `s in xs` for a string and a JSON list: membership by
equality. -/
def jmemStr (s : String) (xs : List JSON) : Bool :=
  xs.any (fun j => match j with | .str t => t == s | _ => false)

namespace PU

/-- The per-element `name` rename step of the `entities` branch of
`update_entity`: Python `if "name" in entity and entity["name"] in
table_map: entity["name"] = table_map[entity["name"]]`.  On a string
element, `"name" in entity` is a substring test and the subsequent
indexing raises; on a list element, it is membership and the indexing
raises; non-iterable elements raise at the `in` test. -/
def entNameStep (tm : TableMap) : JSON → Except Unit (JSON × Bool)
  | .obj kvs =>
    match kvs.lookup "name" with
    | some (.arr _) => .error ()
    | some (.obj _) => .error ()
    | some (.str s) =>
      match tm.lookup s with
      | some nt => .ok (.obj (setKey kvs "name" (.str nt)), true)
      | none => .ok (.obj kvs, false)
    | some _ => .ok (.obj kvs, false)
    | none => .ok (.obj kvs, false)
  | .str s => if isSubstrS "name" s then .error () else .ok (.str s, false)
  | .arr xs => if jmemStr "name" xs then .error () else .ok (.arr xs, false)
  | _ => .error ()

/-- Replacing the value under a key by a string leaf preserves the size
measure when the old value was a string leaf. -/
theorem jsizeO_setKey_str {kvs : List (String × JSON)} {k s t}
    (h : kvs.lookup k = some (JSON.str s)) :
    jsizeO (setKey kvs k (.str t)) = jsizeO kvs := by
  induction kvs with
  | nil => cases h
  | cons p rest ih =>
    obtain ⟨k1, v1⟩ := p
    simp only [List.lookup] at h
    simp only [setKey]
    split at h
    · rename_i hbeq
      have hk1 : k1 = k := (beq_iff_eq.mp hbeq).symm
      cases h
      rw [if_pos hk1]
      simp [jsizeO, jsize]
    · rename_i hbeq
      have hk1 : ¬ k1 = k := by
        intro he
        subst he
        simp at hbeq
      rw [if_neg hk1]
      simp only [jsizeO]
      rw [ih h]

theorem jsize_entNameStep {tm : TableMap} {e e1 : JSON} {b : Bool}
    (h : entNameStep tm e = .ok (e1, b)) : jsize e1 = jsize e := by
  cases e with
  | obj kvs =>
    simp only [entNameStep] at h
    split at h
    · cases h
    · cases h
    · rename_i s hlook
      split at h
      · cases h
        simp only [jsize]
        rw [jsizeO_setKey_str hlook]
      · cases h
        rfl
    · cases h
      rfl
    · cases h
      rfl
  | str s =>
    simp only [entNameStep] at h
    split at h
    · cases h
    · cases h
      rfl
  | arr xs =>
    simp only [entNameStep] at h
    split at h
    · cases h
    · cases h
      rfl
  | null => simp [entNameStep] at h
  | bool b2 => simp [entNameStep] at h
  | num n => simp [entNameStep] at h

mutual

/-- `update_entity` of pbir_utils.py, returning the updated tree and the
`updated` flag; `.error` models an uncaught Python exception. -/
def update_entity (tm : TableMap) : JSON → Except Unit (JSON × Bool)
  | .obj kvs =>
    match entObj tm kvs with
    | .ok (kvs2, b) => .ok (.obj kvs2, b)
    | .error u => .error u
  | .arr xs =>
    match entList tm xs with
    | .ok (xs2, b) => .ok (.arr xs2, b)
    | .error u => .error u
  | j => .ok (j, false)
  termination_by j => 2 * jsize j
  decreasing_by
  all_goals try simp only [jsize, jsizeL, jsizeO]
  all_goals omega

/-- Traversal of a list node by `update_entity`. -/
def entList (tm : TableMap) : List JSON → Except Unit (List JSON × Bool)
  | [] => .ok ([], false)
  | x :: xs =>
    match update_entity tm x with
    | .ok (x2, b1) =>
      match entList tm xs with
      | .ok (xs2, b2) => .ok (x2 :: xs2, b1 || b2)
      | .error u => .error u
    | .error u => .error u
  termination_by xs => 2 * jsizeL xs
  decreasing_by
  all_goals try simp only [jsize, jsizeL, jsizeO]
  all_goals omega

/-- Traversal of the entries of a mapping node by `update_entity`
(`for key, value in data.items()`). -/
def entObj (tm : TableMap) : List (String × JSON) → Except Unit (List (String × JSON) × Bool)
  | [] => .ok ([], false)
  | (k, v) :: rest =>
    match entEntry tm k v with
    | .ok (e2, b1) =>
      match entObj tm rest with
      | .ok (rest2, b2) => .ok (e2 :: rest2, b1 || b2)
      | .error u => .error u
    | .error u => .error u
  termination_by kvs => 2 * jsizeO kvs
  decreasing_by
  all_goals try simp only [jsize, jsizeL, jsizeO]
  all_goals omega

/-- The key dispatch of `update_entity` on one mapping entry.  `Entity`
values found in the table map are replaced (unhashable values raise);
`entities` sequences get the per-element name rename then recursion;
string-valued `expression` entries go through the DAX rewriter with the
table map only; all other entries recurse. -/
def entEntry (tm : TableMap) (k : String) (v : JSON) : Except Unit ((String × JSON) × Bool) :=
  if k = "Entity" then
    match v with
    | .arr _ => .error ()
    | .obj _ => .error ()
    | .str s =>
      match tm.lookup s with
      | some nt => .ok ((k, .str nt), true)
      | none => .ok ((k, .str s), false)
    | j => .ok ((k, j), false)
  else if k = "entities" then
    match v with
    | .arr es =>
      match entEntitiesList tm es with
      | .ok (es2, b) => .ok ((k, .arr es2), b)
      | .error u => .error u
    | .str s => .ok ((k, .str s), false)
    | .obj kvs2 =>
      if kvs2.any (fun p => isSubstrS "name" p.1) then .error ()
      else .ok ((k, .obj kvs2), false)
    | _ => .error ()
  else if k = "expression" then
    match v with
    | .str s =>
      let s2 := PU.update_dax_expression s tm []
      .ok ((k, .str s2), s2 != s)
    | j2 =>
      match update_entity tm j2 with
      | .ok (v2, b) => .ok ((k, v2), b)
      | .error u => .error u
  else
    match update_entity tm v with
    | .ok (v2, b) => .ok ((k, v2), b)
    | .error u => .error u
  termination_by 2 * jsize v + 1
  decreasing_by
  all_goals try simp only [jsize, jsizeL, jsizeO]
  all_goals omega

/-- The per-element body of the `entities` branch: rename the `name`
field, then recurse into the (renamed) element. -/
def entEntitiesList (tm : TableMap) : List JSON → Except Unit (List JSON × Bool)
  | [] => .ok ([], false)
  | e :: es =>
    match h : entNameStep tm e with
    | .ok (e1, b1) =>
      match update_entity tm e1 with
      | .ok (e2, b2) =>
        match entEntitiesList tm es with
        | .ok (es2, b3) => .ok (e2 :: es2, b1 || (b2 || b3))
        | .error u => .error u
      | .error u => .error u
    | .error u => .error u
  termination_by es => 2 * jsizeL es
  decreasing_by
  all_goals try simp only [jsize, jsizeL, jsizeO]
  all_goals try omega
  all_goals (have he := jsize_entNameStep h; omega)

end

end PU

/-- One `Where` entry of the `filter` branch of `update_property`:
`condition.get("Condition", {}).get("Not", {}).get("Expression",
{}).get("In", {}).get("Expressions", [{}])[0].get("Column", {})`, then the
`Property` rewrite keyed by the filter entity.  A missing key anywhere
falls through to an empty default and ends as a no-op; a present key of
the wrong shape raises.  `look` is the column-map lookup keyed by
`(entity, property)`, returning the new column name. -/
def whereCond (look : String → String → Option String) (fe : JSON) (cond : JSON) :
    Except Unit (JSON × Bool) :=
  match cond with
  | .obj ckvs =>
    match ckvs.lookup "Condition" with
    | none => .ok (cond, false)
    | some (.obj k1) =>
      match k1.lookup "Not" with
      | none => .ok (cond, false)
      | some (.obj k2) =>
        match k2.lookup "Expression" with
        | none => .ok (cond, false)
        | some (.obj k3) =>
          match k3.lookup "In" with
          | none => .ok (cond, false)
          | some (.obj k4) =>
            match k4.lookup "Expressions" with
            | none => .ok (cond, false)
            | some (.arr (.obj xk :: xrest)) =>
              match xk.lookup "Column" with
              | none => .ok (cond, false)
              | some (.obj colk) =>
                match colk.lookup "Property" with
                | none => .ok (cond, false)
                | some p =>
                  if truthy p then
                    if hashableJ fe && hashableJ p then
                      match fe, p with
                      | .str fes, .str ps =>
                        match look fes ps with
                        | some newp =>
                          let colk2 := setKey colk "Property" (.str newp)
                          let xk2 := setKey xk "Column" (.obj colk2)
                          let k42 := setKey k4 "Expressions" (.arr (.obj xk2 :: xrest))
                          let k32 := setKey k3 "In" (.obj k42)
                          let k22 := setKey k2 "Expression" (.obj k32)
                          let k12 := setKey k1 "Not" (.obj k22)
                          .ok (.obj (setKey ckvs "Condition" (.obj k12)), true)
                        | none => .ok (cond, false)
                      | _, _ => .ok (cond, false)
                    else .error ()
                  else .ok (cond, false)
              | some _ => .error ()
            | some _ => .error ()
          | some _ => .error ()
        | some _ => .error ()
      | some _ => .error ()
    | some _ => .error ()
  | _ => .error ()

/-- Iteration over the `Where` entries. -/
def whereList (look : String → String → Option String) (fe : JSON) :
    List JSON → Except Unit (List JSON × Bool)
  | [] => .ok ([], false)
  | cnd :: rest =>
    match whereCond look fe cnd with
    | .ok (c2, b1) =>
      match whereList look fe rest with
      | .ok (rest2, b2) => .ok (c2 :: rest2, b1 || b2)
      | .error u => .error u
    | .error u => .error u

/-- The `filter` branch of `update_property`: when the value is a mapping
with both `From` and `Where` keys, read `From[0]["Entity"]` (raising on an
empty or malformed `From`) and rewrite each `Where` entry; otherwise the
branch does nothing (and does not recurse).  On a non-mapping value the
Python membership tests are substring or list-membership tests, and a hit
raises at the subscription; non-iterable values raise at the test. -/
def filterProc (look : String → String → Option String) (k : String) (v : JSON) :
    Except Unit ((String × JSON) × Bool) :=
  match v with
  | .obj kvs =>
    if (kvs.lookup "From").isSome ∧ (kvs.lookup "Where").isSome then
      match kvs.lookup "From" with
      | some (.arr (f0 :: _)) =>
        match f0 with
        | .obj f0k =>
          match f0k.lookup "Entity" with
          | some fe =>
            match kvs.lookup "Where" with
            | some (.arr conds) =>
              match whereList look fe conds with
              | .ok (conds2, b) => .ok ((k, .obj (setKey kvs "Where" (.arr conds2))), b)
              | .error u => .error u
            | some (.str s) => if s.isEmpty then .ok ((k, v), false) else .error ()
            | some (.obj wk) => if wk.isEmpty then .ok ((k, v), false) else .error ()
            | _ => .error ()
          | none => .error ()
        | _ => .error ()
      | _ => .error ()
    else .ok ((k, v), false)
  | .str s =>
    if isSubstrS "From" s ∧ isSubstrS "Where" s then .error () else .ok ((k, v), false)
  | .arr xs =>
    if jmemStr "From" xs ∧ jmemStr "Where" xs then .error () else .ok ((k, v), false)
  | _ => .error ()

namespace PU

/-- The `Column`/`Measure` branch of `update_property` (pbir_utils.py):
extract `entity` and `property`, and on a column-map hit write the looked
up column name into `Property` and write `entity` back into
`Expression.SourceRef.Entity` (the same value, so that write is the
identity). -/
def colMeasProc (cm : ColumnMap) (k : String) (v : JSON) :
    Except Unit ((String × JSON) × Bool) :=
  match v with
  | .obj kvs =>
    match (kvs.lookup "Expression").getD (.obj []) with
    | .obj k1 =>
      match (k1.lookup "SourceRef").getD (.obj []) with
      | .obj k2 =>
        let entity := k2.lookup "Entity"
        let property := kvs.lookup "Property"
        if truthyO entity && truthyO property then
          if hashableO entity && hashableO property then
            match entity, property with
            | some (.str e), some (.str p) =>
              match cm.lookup (e, p) with
              | some newp =>
                let k22 := setKey k2 "Entity" (.str e)
                let k12 := setKey k1 "SourceRef" (.obj k22)
                let kvsA := setKey kvs "Expression" (.obj k12)
                .ok ((k, .obj (setKey kvsA "Property" (.str newp))), true)
              | none => .ok ((k, v), false)
            | _, _ => .ok ((k, v), false)
          else .error ()
        else .ok ((k, v), false)
      | _ => .error ()
    | _ => .error ()
  | _ => .error ()

end PU

namespace UA

/-- The `Column`/`Measure` branch of `update_property`
(update_attribute_names_pbir.py): on a hit, `Property` gets the mapped
column name and `Expression.SourceRef.Entity` gets the mapped table
name. -/
def colMeasProc (cm : ColumnMap) (k : String) (v : JSON) :
    Except Unit ((String × JSON) × Bool) :=
  match v with
  | .obj kvs =>
    match (kvs.lookup "Expression").getD (.obj []) with
    | .obj k1 =>
      match (k1.lookup "SourceRef").getD (.obj []) with
      | .obj k2 =>
        let entity := k2.lookup "Entity"
        let property := kvs.lookup "Property"
        if truthyO entity && truthyO property then
          if hashableO entity && hashableO property then
            match entity, property with
            | some (.str e), some (.str p) =>
              match cm.lookup (e, p) with
              | some (newt, newp) =>
                let k22 := setKey k2 "Entity" (.str newt)
                let k12 := setKey k1 "SourceRef" (.obj k22)
                let kvsA := setKey kvs "Expression" (.obj k12)
                .ok ((k, .obj (setKey kvsA "Property" (.str newp))), true)
              | none => .ok ((k, v), false)
            | _, _ => .ok ((k, v), false)
          else .error ()
        else .ok ((k, v), false)
      | _ => .error ()
    | _ => .error ()
  | _ => .error ()

end UA

namespace PU

/-- The column-map lookup of pbir_utils.py as used by the `filter`
branch: values are new column names. -/
def cmLook (cm : ColumnMap) : String → String → Option String :=
  fun a b => cm.lookup (a, b)

mutual

/-- `update_property` of pbir_utils.py, returning the updated tree and the
`updated` flag; `.error` models an uncaught Python exception. -/
def update_property (cm : ColumnMap) : JSON → Except Unit (JSON × Bool)
  | .obj kvs =>
    match propObj cm kvs with
    | .ok (kvs2, b) => .ok (.obj kvs2, b)
    | .error u => .error u
  | .arr xs =>
    match propList cm xs with
    | .ok (xs2, b) => .ok (.arr xs2, b)
    | .error u => .error u
  | j => .ok (j, false)
  termination_by j => 2 * jsize j
  decreasing_by
  all_goals try simp only [jsize, jsizeL, jsizeO]
  all_goals omega

/-- Traversal of a list node by `update_property`. -/
def propList (cm : ColumnMap) : List JSON → Except Unit (List JSON × Bool)
  | [] => .ok ([], false)
  | x :: xs =>
    match update_property cm x with
    | .ok (x2, b1) =>
      match propList cm xs with
      | .ok (xs2, b2) => .ok (x2 :: xs2, b1 || b2)
      | .error u => .error u
    | .error u => .error u
  termination_by xs => 2 * jsizeL xs
  decreasing_by
  all_goals try simp only [jsize, jsizeL, jsizeO]
  all_goals omega

/-- Traversal of the entries of a mapping node by `update_property`. -/
def propObj (cm : ColumnMap) : List (String × JSON) → Except Unit (List (String × JSON) × Bool)
  | [] => .ok ([], false)
  | (k, v) :: rest =>
    match propEntry cm k v with
    | .ok (e2, b1) =>
      match propObj cm rest with
      | .ok (rest2, b2) => .ok (e2 :: rest2, b1 || b2)
      | .error u => .error u
    | .error u => .error u
  termination_by kvs => 2 * jsizeO kvs
  decreasing_by
  all_goals try simp only [jsize, jsizeL, jsizeO]
  all_goals omega

/-- The key dispatch of `update_property` on one mapping entry: `Column`
and `Measure` values go to the column/measure rewrite (without recursion),
string-valued `expression` entries go through the DAX rewriter with the
column map only, `filter` values go to the filter branch (without
recursion), and all other entries recurse. -/
def propEntry (cm : ColumnMap) (k : String) (v : JSON) : Except Unit ((String × JSON) × Bool) :=
  if k = "Column" ∨ k = "Measure" then colMeasProc cm k v
  else if k = "expression" then
    match v with
    | .str s =>
      let s2 := PU.update_dax_expression s [] cm
      .ok ((k, .str s2), s2 != s)
    | j2 =>
      match update_property cm j2 with
      | .ok (v2, b) => .ok ((k, v2), b)
      | .error u => .error u
  else if k = "filter" then filterProc (cmLook cm) k v
  else
    match update_property cm v with
    | .ok (v2, b) => .ok ((k, v2), b)
    | .error u => .error u
  termination_by 2 * jsize v + 1
  decreasing_by
  all_goals try simp only [jsize, jsizeL, jsizeO]
  all_goals omega

end

end PU

namespace UA

/-- The column-map lookup of update_attribute_names_pbir.py as used by the
`filter` branch: only the new column name of the pair is used there. -/
def cmLook (cm : ColumnMap) : String → String → Option String :=
  fun a b => (cm.lookup (a, b)).map Prod.snd

mutual

/-- `update_property` of update_attribute_names_pbir.py. -/
def update_property (cm : ColumnMap) : JSON → Except Unit (JSON × Bool)
  | .obj kvs =>
    match propObj cm kvs with
    | .ok (kvs2, b) => .ok (.obj kvs2, b)
    | .error u => .error u
  | .arr xs =>
    match propList cm xs with
    | .ok (xs2, b) => .ok (.arr xs2, b)
    | .error u => .error u
  | j => .ok (j, false)
  termination_by j => 2 * jsize j
  decreasing_by
  all_goals try simp only [jsize, jsizeL, jsizeO]
  all_goals omega

/-- Traversal of a list node by `update_property`. -/
def propList (cm : ColumnMap) : List JSON → Except Unit (List JSON × Bool)
  | [] => .ok ([], false)
  | x :: xs =>
    match update_property cm x with
    | .ok (x2, b1) =>
      match propList cm xs with
      | .ok (xs2, b2) => .ok (x2 :: xs2, b1 || b2)
      | .error u => .error u
    | .error u => .error u
  termination_by xs => 2 * jsizeL xs
  decreasing_by
  all_goals try simp only [jsize, jsizeL, jsizeO]
  all_goals omega

/-- Traversal of the entries of a mapping node by `update_property`. -/
def propObj (cm : ColumnMap) : List (String × JSON) → Except Unit (List (String × JSON) × Bool)
  | [] => .ok ([], false)
  | (k, v) :: rest =>
    match propEntry cm k v with
    | .ok (e2, b1) =>
      match propObj cm rest with
      | .ok (rest2, b2) => .ok (e2 :: rest2, b1 || b2)
      | .error u => .error u
    | .error u => .error u
  termination_by kvs => 2 * jsizeO kvs
  decreasing_by
  all_goals try simp only [jsize, jsizeL, jsizeO]
  all_goals omega

/-- The key dispatch of `update_property` on one mapping entry
(update_attribute_names_pbir.py). -/
def propEntry (cm : ColumnMap) (k : String) (v : JSON) : Except Unit ((String × JSON) × Bool) :=
  if k = "Column" ∨ k = "Measure" then colMeasProc cm k v
  else if k = "expression" then
    match v with
    | .str s =>
      let s2 := UA.update_dax_expression s [] cm
      .ok ((k, .str s2), s2 != s)
    | j2 =>
      match update_property cm j2 with
      | .ok (v2, b) => .ok ((k, v2), b)
      | .error u => .error u
  else if k = "filter" then filterProc (cmLook cm) k v
  else
    match update_property cm v with
    | .ok (v2, b) => .ok ((k, v2), b)
    | .error u => .error u
  termination_by 2 * jsize v + 1
  decreasing_by
  all_goals try simp only [jsize, jsizeL, jsizeO]
  all_goals omega

end

end UA

/-- One parsed CSV record with the four expected fields; a missing cell is
the empty string (Python `None` and `""` behave identically in every test
the loader and resolver perform). -/
structure Row where
  old_tbl : String
  old_col : String
  new_tbl : String
  new_col : String
  deriving Repr, DecidableEq

/-- Python `name.lstrip("\ufeff")`: strip leading byte-order marks. -/
def stripBOM (s : String) : String :=
  String.mk (s.data.dropWhile (fun c => c = '\uFEFF'))

/-- The row filter of `load_csv_mapping`:
`old_tbl and (new_tbl or (old_col and new_col))`. -/
def rowAccept (r : Row) : Bool :=
  r.old_tbl != "" && (r.new_tbl != "" || (r.old_col != "" && r.new_col != ""))

/-- `load_csv_mapping`, modeled on the parsed header (`reader.fieldnames`)
and parsed records: a schema error when any expected column is missing
after BOM stripping, raised before any row is read; otherwise the rows
passing the filter, in order. -/
def load_csv_mapping (fieldnames : List String) (rows : List Row) : Except String (List Row) :=
  let fns := fieldnames.map stripBOM
  if ["old_tbl", "old_col", "new_tbl", "new_col"].all (fun c => fns.contains c) then
    .ok (rows.filter rowAccept)
  else
    .error "CSV file must contain the following columns: old_tbl, old_col, new_tbl, new_col"

/-- Python dict insertion: overwrite in place on an existing key, append a
new key at the end. -/
def dinsert {α : Type} {β : Type} [DecidableEq α] (k : α) (v : β) :
    List (α × β) → List (α × β)
  | [] => [(k, v)]
  | (k1, v1) :: rest => if k1 = k then (k, v) :: rest else (k1, v1) :: dinsert k v rest

/-- The map-building loop of `update_json_files_in_directory`
(update_attribute_names_pbir.py): `table_map[old_tbl] = new_tbl` when the
new table is nonempty and differs, and
`column_map[(effective_tbl, old_col)] = (effective_tbl, new_col)` with
`effective_tbl = table_map.get(old_tbl, old_tbl)` read from the table map
as updated so far (including by the same row). -/
def UA.build_maps (mappings : List Row) : TableMap × UA.ColumnMap :=
  mappings.foldl
    (fun maps r =>
      let tm := if r.new_tbl != "" && r.new_tbl != r.old_tbl then
          dinsert r.old_tbl r.new_tbl maps.1
        else maps.1
      let cm := if r.old_col != "" && r.new_col != "" then
          let eff := (tm.lookup r.old_tbl).getD r.old_tbl
          dinsert (eff, r.old_col) (eff, r.new_col) maps.2
        else maps.2
      (tm, cm))
    ([], [])

/-- The map-building loop of `update_json_files_in_directory`
(pbir_utils.py): as in the other module but
`column_map[(effective_tbl, old_col)] = new_col`. -/
def PU.build_maps (mappings : List Row) : TableMap × PU.ColumnMap :=
  mappings.foldl
    (fun maps r =>
      let tm := if r.new_tbl != "" && r.new_tbl != r.old_tbl then
          dinsert r.old_tbl r.new_tbl maps.1
        else maps.1
      let cm := if r.old_col != "" && r.new_col != "" then
          let eff := (tm.lookup r.old_tbl).getD r.old_tbl
          dinsert (eff, r.old_col) r.new_col maps.2
        else maps.2
      (tm, cm))
    ([], [])

/-- Paths into a JSON document: object keys and array indices. -/
inductive PathElem where
  | key : String → PathElem
  | idx : Nat → PathElem
  deriving Repr, DecidableEq

/-- Read the value at a path (object lookups and array indexing). -/
def getPath : JSON → List PathElem → Option JSON
  | j, [] => some j
  | .obj kvs, .key k :: ps =>
    match kvs.lookup k with
    | some v => getPath v ps
    | none => none
  | .arr xs, .idx n :: ps =>
    match xs[n]? with
    | some v => getPath v ps
    | none => none
  | _, _ => none

/-- Whether a value is a string leaf. -/
def isStrJ : JSON → Bool
  | .str _ => true
  | _ => false

mutual

/-- No mapping entry anywhere in the tree has key `expression` with a
string value (so neither pass invokes the DAX rewriter). -/
def noES : JSON → Bool
  | .obj kvs => noESO kvs
  | .arr xs => noESL xs
  | _ => true

def noESL : List JSON → Bool
  | [] => true
  | x :: xs => noES x && noESL xs

def noESO : List (String × JSON) → Bool
  | [] => true
  | (k, v) :: rest => !(k == "expression" && isStrJ v) && noES v && noESO rest

end

/-- Specification-side table map (C7): evaluated at `k`, the last rule in
input order whose old table is `k` with a nonempty, differing new table. -/
def specTableMap (rows : List Row) (k : String) : Option String :=
  (rows.filterMap (fun r =>
    if r.old_tbl = k ∧ r.new_tbl ≠ "" ∧ r.new_tbl ≠ r.old_tbl then some r.new_tbl
    else none)).getLast?

/-- Specification-side column-map entries (C7): one entry per rule with
both columns nonempty, keyed by the effective table computed against the
table map of the rules up to and including that rule. -/
def specColEntries (rows : List Row) : List ((String × String) × (String × String)) :=
  (List.range rows.length).filterMap (fun i =>
    match rows[i]? with
    | some r =>
      if r.old_col ≠ "" ∧ r.new_col ≠ "" then
        let eff := (specTableMap (rows.take (i + 1)) r.old_tbl).getD r.old_tbl
        some ((eff, r.old_col), (eff, r.new_col))
      else none
    | none => none)

/-- Specification-side column map (C7): at a key, the value of the last
entry for that key. -/
def specColumnMap (rows : List Row) (p : String × String) : Option (String × String) :=
  (((specColEntries rows).filter (fun e => e.1 = p)).getLast?).map (fun e => e.2)

/-- Test fixture: a `Where` entry whose nested column has property `c`. -/
def whereEntry (c : String) : JSON :=
  JSON.obj [("Condition",
    JSON.obj [("Not",
      JSON.obj [("Expression",
        JSON.obj [("In",
          JSON.obj [("Expressions",
            JSON.arr [JSON.obj [("Column",
              JSON.obj [("Property", JSON.str c)])]])])])])])]

/-- Test fixture: a document with one filter node, `From[0].Entity = t`
and one `Where` entry with property `c`. -/
def filterDoc (t c : String) : JSON :=
  JSON.obj [("filter", JSON.obj [
    ("From", JSON.arr [JSON.obj [("Entity", JSON.str t)]]),
    ("Where", JSON.arr [whereEntry c])])]

/-- Preservation of every `filter.From` subtree (used to state C10): any
value reachable at a path ending with the keys `filter`, `From` in `x` is
reachable unchanged at the same path in `y`. -/
def PresFF (x y : JSON) : Prop :=
  ∀ (ps : List PathElem) (e : JSON),
    getPath x (ps ++ [.key "filter", .key "From"]) = some e →
    getPath y (ps ++ [.key "filter", .key "From"]) = some e

/-- Entry-wise relation produced by the property pass on the entries of a
mapping node: keys agree, values preserve `filter.From` subtrees, and the
value of a `filter` entry keeps its `From` component. -/
def EntryRel (p p2 : String × JSON) : Prop :=
  p.1 = p2.1 ∧ PresFF p.2 p2.2 ∧
    (p.1 = "filter" → ∀ e, getPath p.2 [.key "From"] = some e →
      getPath p2.2 [.key "From"] = some e)

/-- Whether a value is a mapping or a sequence (the only shapes the
traversals recurse into). -/
def isContainer : JSON → Bool
  | .obj _ => true
  | .arr _ => true
  | _ => false

/-- The table map is non-chaining: no value of the map is also a key (so a
renamed table name is never renamed again). -/
def tmNonChain (tm : TableMap) : Bool :=
  tm.all (fun p => (tm.lookup p.2).isNone)

/-- The pbir_utils.py column map is non-chaining: no entry maps a column
to a name that is itself mapped under the same table (so a renamed column
is never renamed again). -/
def cmNonChainPU (cm : PU.ColumnMap) : Bool :=
  cm.all (fun p => (cm.lookup (p.1.1, p.2)).isNone)

/-- Entry-wise correspondence produced by the entity pass on a mapping
node: keys are preserved and each output value is the image of the input
entry. -/
def EntCorr (tm : TableMap) (p p2 : String × JSON) : Prop :=
  p2.1 = p.1 ∧ ∃ bb, PU.entEntry tm p.1 p.2 = .ok ((p.1, p2.2), bb)

/-- Entry-wise correspondence produced by the property pass on a mapping
node. -/
def PropCorr (cm : PU.ColumnMap) (p p2 : String × JSON) : Prop :=
  p2.1 = p.1 ∧ ∃ bb, PU.propEntry cm p.1 p.2 = .ok ((p.1, p2.2), bb)

/-
Helper lemmas.
-/

theorem lookup_setKey_self {kvs : List (String × JSON)} {k : String} {v : JSON}
    (h : (kvs.lookup k).isSome) : (setKey kvs k v).lookup k = some v := by
  induction kvs with
  | nil => simp [List.lookup] at h
  | cons p rest ih =>
    obtain ⟨k1, v1⟩ := p
    by_cases hk : k1 = k
    · subst hk
      simp [setKey, List.lookup]
    · simp only [setKey, if_neg hk]
      have hb : (k == k1) = false := by
        simp [beq_eq_false_iff_ne]
        exact fun he => hk he.symm
      simp only [List.lookup, hb] at h ⊢
      exact ih h

theorem lookup_setKey_ne {kvs : List (String × JSON)} {k k2 : String} {v : JSON}
    (hne : k2 ≠ k) : (setKey kvs k v).lookup k2 = kvs.lookup k2 := by
  induction kvs with
  | nil => simp [setKey]
  | cons p rest ih =>
    obtain ⟨k1, v1⟩ := p
    by_cases hk : k1 = k
    · subst hk
      simp only [setKey, if_pos rfl]
      have hb : (k2 == k1) = false := by
        simp [beq_eq_false_iff_ne]
        exact hne
      simp [List.lookup, hb]
    · simp only [setKey, if_neg hk, List.lookup]
      split
      · rfl
      · exact ih

theorem setKey_self_id {kvs : List (String × JSON)} {k : String} {v : JSON}
    (h : kvs.lookup k = some v) : setKey kvs k v = kvs := by
  induction kvs with
  | nil => simp [setKey]
  | cons p rest ih =>
    obtain ⟨k1, v1⟩ := p
    by_cases hk : k1 = k
    · subst hk
      simp only [List.lookup, beq_self_eq_true] at h
      cases h
      simp [setKey]
    · have hb : (k == k1) = false := by
        simp [beq_eq_false_iff_ne]
        exact fun he => hk he.symm
      simp only [List.lookup, hb] at h
      simp [setKey, if_neg hk, ih h]

/-
Claim theorems.
-/

/-- C1: with both maps supplied, the table pass runs first and the column
pass looks up the already-renamed qualifier: rewriting `'Sales'[Amount]`
with table map `{Sales -> Revenue}` and column map keyed
`(Revenue, Amount)` mapping to column `Total` yields `'Revenue'[Total]`,
in both modules. -/
theorem c1_column_lookup_uses_post_rename_table :
    PU.update_dax_expression (q "|Sales|[Amount]") [("Sales", "Revenue")]
        [(("Revenue", "Amount"), "Total")] = q "|Revenue|[Total]" ∧
    UA.update_dax_expression (q "|Sales|[Amount]") [("Sales", "Revenue")]
        [(("Revenue", "Amount"), ("Revenue", "Total"))] = q "|Revenue|[Total]" := by
  decide

/-- C5: the table pass preserves and forces quoting: an unquoted token
whose replacement contains whitespace gains single quotes, and an
originally quoted token stays quoted. -/
theorem c5_quoting_preservation :
    PU.update_dax_expression (q "Sales[Amount]") [("Sales", "Sales History")] [] =
        q "|Sales History|[Amount]" ∧
    PU.update_dax_expression (q "|Sales|[Amount]") [("Sales", "Revenue")] [] =
        q "|Revenue|[Amount]" := by
  decide

/-- C3: the entity pass renames `From[0].Entity` from `Sales` to
`Revenue`, then the property pass, keyed by the renamed entity, rewrites
the nested `Where` property `Amount` to `Total`; both passes report a
change. -/
theorem c3_filter_clause_rewrite :
    PU.update_entity [("Sales", "Revenue")] (filterDoc "Sales" "Amount") =
        .ok (filterDoc "Revenue" "Amount", true) ∧
    PU.update_property [(("Revenue", "Amount"), "Total")] (filterDoc "Revenue" "Amount") =
        .ok (filterDoc "Revenue" "Total", true) ∧
    getPath (filterDoc "Revenue" "Total")
        [.key "filter", .key "From", .idx 0, .key "Entity"] = some (.str "Revenue") ∧
    getPath (filterDoc "Revenue" "Total")
        [.key "filter", .key "Where", .idx 0, .key "Condition", .key "Not", .key "Expression",
         .key "In", .key "Expressions", .idx 0, .key "Column", .key "Property"] =
      some (.str "Total") := by
  refine ⟨?_, ?_, rfl, rfl⟩
  · simp [filterDoc, whereEntry, PU.update_entity, PU.entObj, PU.entEntry, PU.entList,
      List.lookup]
  · simp [filterDoc, whereEntry, PU.update_property, PU.propObj, PU.propEntry, filterProc,
      whereList, whereCond, PU.cmLook, PU.colMeasProc, setKey, List.lookup, truthy, hashableJ]

/-- C4 counterexample: the table pass does alter text inside a bracketed
region when the bracket content is not a single word run: `[Amount Qty]`
with table map `{Amount -> X}` becomes `[X Qty]`. -/
theorem c4_counterexample :
    PU.update_dax_expression (q "[Amount Qty]") [("Amount", "X")] [] = q "[X Qty]" ∧
    q "[X Qty]" ≠ q "[Amount Qty]" := by
  decide

/-- C8 counterexample: a filter node with both `From` and `Where` keys
whose `From` is an empty sequence, or whose `From[0]` lacks an `Entity`
field, raises (IndexError / KeyError in the source) instead of being a
soft no-op. -/
theorem c8_counterexample :
    PU.update_property []
        (.obj [("filter", .obj [("From", .arr []), ("Where", .arr [])])]) = .error () ∧
    PU.update_property []
        (.obj [("filter", .obj [("From", .arr [.obj []]), ("Where", .arr [])])]) = .error () := by
  constructor
  · simp [PU.update_property, PU.propObj, PU.propEntry, filterProc, List.lookup]
  · simp [PU.update_property, PU.propObj, PU.propEntry, filterProc, List.lookup]

/-- C8 amended: missing fields along the nested `Where` condition path are
soft no-ops — for every column map and filter entity, a `Where` entry with
none of the expected nested keys produces no error and no change — while a
filter node whose `From` is empty or lacks `Entity` raises (see the
counterexample). -/
theorem c8_where_soft_noop (cm : PU.ColumnMap) (t : String) :
    PU.update_property cm
        (.obj [("filter", .obj [("From", .arr [.obj [("Entity", .str t)]]),
          ("Where", .arr [.obj []])])]) =
      .ok (.obj [("filter", .obj [("From", .arr [.obj [("Entity", .str t)]]),
          ("Where", .arr [.obj []])])], false) := by
  simp [PU.update_property, PU.propObj, PU.propEntry, filterProc, whereList, whereCond,
    PU.cmLook, setKey, List.lookup]

/-- C6 counterexample: the document rewrite is not idempotent.  With a
chained table map `{A -> B, B -> C}` the second application renames again
and reports a change; and even with a non-chained map `{A -> B.C, B -> X}`
(no value is a key) an `expression` string rewritten to `B.C` is rewritten
again to `X.C` by the second application, because the token `B` of the
replacement is itself a key. -/
theorem c6_counterexample :
    (PU.update_entity [("A", "B"), ("B", "C")] (.obj [("Entity", .str "A")]) =
        .ok (.obj [("Entity", .str "B")], true) ∧
      PU.update_property [] (.obj [("Entity", .str "B")]) =
        .ok (.obj [("Entity", .str "B")], false) ∧
      PU.update_entity [("A", "B"), ("B", "C")] (.obj [("Entity", .str "B")]) =
        .ok (.obj [("Entity", .str "C")], true)) ∧
    (PU.update_entity [("A", "B.C"), ("B", "X")] (.obj [("expression", .str "A")]) =
        .ok (.obj [("expression", .str "B.C")], true) ∧
      PU.update_property [] (.obj [("expression", .str "B.C")]) =
        .ok (.obj [("expression", .str "B.C")], false) ∧
      PU.update_entity [("A", "B.C"), ("B", "X")] (.obj [("expression", .str "B.C")]) =
        .ok (.obj [("expression", .str "X.C")], true)) := by
  refine ⟨⟨?_, ?_, ?_⟩, ⟨?_, ?_, ?_⟩⟩
  · simp [PU.update_entity, PU.entObj, PU.entEntry, List.lookup]
  · simp [PU.update_property, PU.propObj, PU.propEntry, PU.colMeasProc, List.lookup]
  · simp [PU.update_entity, PU.entObj, PU.entEntry, List.lookup]
  · simp [PU.update_entity, PU.entObj, PU.entEntry, PU.update_dax_expression, List.lookup]
    decide
  · simp [PU.update_property, PU.propObj, PU.propEntry, PU.update_dax_expression, List.lookup]
  · simp [PU.update_entity, PU.entObj, PU.entEntry, PU.update_dax_expression, List.lookup]
    decide

/-- C2: for a mapping entry with key `Column` or `Measure` whose value has
both a `Property` field and an `Expression.SourceRef.Entity` field, a
column-map hit on `(entity, property)` makes the property pass set
`Property` to the mapped column name, set `Expression.SourceRef.Entity` to
the mapped table name, and report a change. -/
theorem c2_column_measure_property_rewrite (cm : UA.ColumnMap) (k : String)
    (kvs k1 k2 : List (String × JSON)) (e p nt nc : String)
    (hk : k = "Column" ∨ k = "Measure")
    (hexp : kvs.lookup "Expression" = some (.obj k1))
    (hsr : k1.lookup "SourceRef" = some (.obj k2))
    (hent : k2.lookup "Entity" = some (.str e))
    (hprop : kvs.lookup "Property" = some (.str p))
    (he : e ≠ "") (hp : p ≠ "")
    (hcm : cm.lookup (e, p) = some (nt, nc)) :
    ∃ v2 : JSON,
      UA.propEntry cm k (.obj kvs) = .ok ((k, v2), true) ∧
      getPath v2 [.key "Expression", .key "SourceRef", .key "Entity"] = some (.str nt) ∧
      getPath v2 [.key "Property"] = some (.str nc) := by
  refine ⟨.obj (setKey (setKey kvs "Expression"
      (.obj (setKey k1 "SourceRef" (.obj (setKey k2 "Entity" (.str nt))))))
      "Property" (.str nc)), ?_, ?_, ?_⟩
  · simp only [UA.propEntry, if_pos hk]
    simp [UA.colMeasProc, hexp, hsr, hent, hprop, truthyO, truthy, hashableO, hashableJ,
      hcm, he, hp]
  · simp only [getPath]
    rw [lookup_setKey_ne (show ("Expression" : String) ≠ "Property" from by decide),
      lookup_setKey_self (show (kvs.lookup "Expression").isSome from by simp [hexp])]
    simp only [getPath]
    rw [lookup_setKey_self (show (k1.lookup "SourceRef").isSome from by simp [hsr])]
    simp only [getPath]
    rw [lookup_setKey_self (show (k2.lookup "Entity").isSome from by simp [hent])]
  · simp only [getPath]
    rw [lookup_setKey_self (show ((setKey kvs "Expression" (.obj (setKey k1 "SourceRef"
        (.obj (setKey k2 "Entity" (.str nt)))))).lookup "Property").isSome from by
      rw [lookup_setKey_ne (show ("Property" : String) ≠ "Expression" from by decide)]
      simp [hprop])]

/-- C2 witness: a concrete `Column` entry rewritten by a concrete map. -/
theorem c2_column_measure_property_rewrite_witness :
    ∃ v2 : JSON,
      UA.propEntry [(("Sales", "Amount"), ("Revenue", "Total"))] "Column"
          (.obj [("Expression", .obj [("SourceRef", .obj [("Entity", .str "Sales")])]),
                 ("Property", .str "Amount")]) = .ok (("Column", v2), true) ∧
      getPath v2 [.key "Expression", .key "SourceRef", .key "Entity"] = some (.str "Revenue") ∧
      getPath v2 [.key "Property"] = some (.str "Total") :=
  c2_column_measure_property_rewrite _ _ _ _ _ "Sales" "Amount" "Revenue" "Total"
    (Or.inl rfl) rfl rfl rfl rfl (by decide) (by decide) rfl

/-- C9: loading fails with the schema error exactly when one of the four
expected field names is missing from the BOM-stripped header (before any
row is considered), and under a valid header a row is kept exactly when
its old table is nonempty and either its new table is nonempty or both its
columns are nonempty. -/
theorem c9_rule_loading (fieldnames : List String) (rows : List Row) :
    ((∃ err, load_csv_mapping fieldnames rows = .error err) ↔
      ∃ c ∈ ["old_tbl", "old_col", "new_tbl", "new_col"], c ∉ fieldnames.map stripBOM) ∧
    (∀ out, load_csv_mapping fieldnames rows = .ok out →
      ∀ r, r ∈ out ↔
        r ∈ rows ∧ (r.old_tbl ≠ "" ∧ (r.new_tbl ≠ "" ∨ (r.old_col ≠ "" ∧ r.new_col ≠ "")))) := by
  by_cases hall : (["old_tbl", "old_col", "new_tbl", "new_col"].all
      (fun c => (fieldnames.map stripBOM).contains c)) = true
  · constructor
    · simp only [load_csv_mapping, hall, if_true]
      constructor
      · rintro ⟨err, herr⟩
        cases herr
      · rintro ⟨c, hc, hnot⟩
        exact absurd (by simpa using List.all_eq_true.mp hall c hc) hnot
    · intro out hout r
      simp only [load_csv_mapping, hall, if_true] at hout
      cases hout
      simp [List.mem_filter, rowAccept, and_assoc]
  · constructor
    · simp only [load_csv_mapping, hall, if_false]
      constructor
      · intro _
        by_contra hno
        push_neg at hno
        apply hall
        rw [List.all_eq_true]
        intro c hc
        simpa using hno c hc
      · intro _
        exact ⟨_, rfl⟩
    · intro out hout
      simp only [load_csv_mapping, hall, if_false] at hout
      cases hout

/-- C9 witness: a concrete valid header and row list; the accepted row is
in the output exactly because it passes the filter. -/
theorem c9_rule_loading_witness :
    (⟨"t", "c", "", "d"⟩ : Row) ∈ [(⟨"t", "c", "", "d"⟩ : Row)] ↔
      (⟨"t", "c", "", "d"⟩ : Row) ∈ [(⟨"", "x", "y", "z"⟩ : Row), ⟨"t", "c", "", "d"⟩] ∧
        (("t" : String) ≠ "" ∧ (("" : String) ≠ "" ∨ (("c" : String) ≠ "" ∧ ("d" : String) ≠ ""))) :=
  (c9_rule_loading ["old_tbl", "old_col", "new_tbl", "new_col"]
      [⟨"", "x", "y", "z"⟩, ⟨"t", "c", "", "d"⟩]).2
    [⟨"t", "c", "", "d"⟩] rfl ⟨"t", "c", "", "d"⟩

theorem lookup_dinsert {α β : Type} [DecidableEq α] [BEq α] [LawfulBEq α]
    (k k2 : α) (v : β) (m : List (α × β)) :
    (dinsert k v m).lookup k2 = if k2 = k then some v else m.lookup k2 := by
  induction m with
  | nil =>
    simp only [dinsert, List.lookup]
    split
    · rename_i hbeq
      rw [if_pos (eq_of_beq hbeq)]
    · rename_i hbeq
      rw [if_neg (fun he => by subst he; simp at hbeq)]
  | cons p rest ih =>
    obtain ⟨k1, v1⟩ := p
    by_cases hk : k1 = k
    · subst hk
      simp only [dinsert, if_pos rfl, List.lookup]
      split
      · rename_i hbeq
        rw [if_pos (eq_of_beq hbeq)]
      · rename_i hbeq
        rw [if_neg (fun he => by subst he; simp at hbeq)]
    · simp only [dinsert, if_neg hk, List.lookup]
      split
      · rename_i hbeq
        have h12 : k2 = k1 := eq_of_beq hbeq
        subst h12
        rw [if_neg hk]
      · exact ih

theorem specTableMap_concat (rows : List Row) (r : Row) (k : String) :
    specTableMap (rows ++ [r]) k =
      if r.old_tbl = k ∧ r.new_tbl ≠ "" ∧ r.new_tbl ≠ r.old_tbl then some r.new_tbl
      else specTableMap rows k := by
  unfold specTableMap
  rw [List.filterMap_append]
  split
  · rename_i hc
    simp only [List.filterMap, if_pos hc]
    rw [List.getLast?_concat]
  · rename_i hc
    simp only [List.filterMap, if_neg hc]
    rw [List.append_nil]

theorem specColEntries_concat (rows : List Row) (r : Row) :
    specColEntries (rows ++ [r]) =
      specColEntries rows ++
        (if r.old_col ≠ "" ∧ r.new_col ≠ "" then
          [(((specTableMap (rows ++ [r]) r.old_tbl).getD r.old_tbl, r.old_col),
            ((specTableMap (rows ++ [r]) r.old_tbl).getD r.old_tbl, r.new_col))]
        else []) := by
  unfold specColEntries
  have hlen : (rows ++ [r]).length = rows.length + 1 := by simp
  rw [hlen, List.range_succ, List.filterMap_append]
  congr 1
  · apply List.filterMap_congr
    intro i hi
    have hilt : i < rows.length := List.mem_range.mp hi
    rw [show (rows ++ [r])[i]? = rows[i]? from by
      rw [List.getElem?_append]
      exact if_pos hilt]
    rw [List.take_append_of_le_length (by omega)]
  · have hr : (rows ++ [r])[rows.length]? = some r := by
      rw [List.getElem?_append]
      simp
    have ht : (rows ++ [r]).take (rows.length + 1) = rows ++ [r] := by
      apply List.take_of_length_le
      simp
    by_cases hc : r.old_col ≠ "" ∧ r.new_col ≠ ""
    · rw [if_pos hc]
      simp [List.filterMap, hr, ht, hc]
    · rw [if_neg hc]
      simp [List.filterMap, hr, ht, hc]

/-- C7: the mapping resolver produces exactly the table map of the
last-wins qualifying rules, and the column map keyed by the effective
table computed against the table map as built up to and including each
rule, valued with that effective table and the new column. -/
theorem c7_mapping_resolver (rows : List Row) :
    (∀ k, ((UA.build_maps rows).1).lookup k = specTableMap rows k) ∧
    (∀ p, ((UA.build_maps rows).2).lookup p = specColumnMap rows p) := by
  induction rows using List.reverseRecOn with
  | nil =>
    constructor
    · intro k
      rfl
    · intro p
      rfl
  | append_singleton rows r ih =>
    obtain ⟨ihT, ihC⟩ := ih
    have h1 : (UA.build_maps (rows ++ [r])).1 =
        (if r.new_tbl != "" && r.new_tbl != r.old_tbl then
          dinsert r.old_tbl r.new_tbl (UA.build_maps rows).1
        else (UA.build_maps rows).1) := by
      unfold UA.build_maps
      rw [List.foldl_append]
      rfl
    have h2 : (UA.build_maps (rows ++ [r])).2 =
        (if r.old_col != "" && r.new_col != "" then
          dinsert (((UA.build_maps (rows ++ [r])).1.lookup r.old_tbl).getD r.old_tbl, r.old_col)
            (((UA.build_maps (rows ++ [r])).1.lookup r.old_tbl).getD r.old_tbl, r.new_col)
            (UA.build_maps rows).2
        else (UA.build_maps rows).2) := by
      unfold UA.build_maps
      rw [List.foldl_append]
      rfl
    have hT : ∀ k, ((UA.build_maps (rows ++ [r])).1).lookup k = specTableMap (rows ++ [r]) k := by
      intro k
      rw [h1, specTableMap_concat]
      by_cases hc : r.new_tbl ≠ "" ∧ r.new_tbl ≠ r.old_tbl
      · have hcb : (r.new_tbl != "" && r.new_tbl != r.old_tbl) = true := by
          simp [hc.1, hc.2]
        rw [if_pos hcb, lookup_dinsert]
        by_cases hk : k = r.old_tbl
        · subst hk
          rw [if_pos rfl, if_pos ⟨rfl, hc⟩]
        · rw [if_neg hk, if_neg (fun hcon => hk hcon.1.symm), ihT]
      · have hcb : ¬((r.new_tbl != "" && r.new_tbl != r.old_tbl) = true) := by
          simp only [Bool.and_eq_true, bne_iff_ne]
          intro hcon
          exact hc ⟨hcon.1, hcon.2⟩
        rw [if_neg hcb, ihT, if_neg (fun hcon => hc hcon.2)]
    refine ⟨hT, ?_⟩
    intro p
    rw [h2]
    unfold specColumnMap
    rw [specColEntries_concat, List.filter_append, List.getLast?_append]
    by_cases hc : r.old_col ≠ "" ∧ r.new_col ≠ ""
    · have hcb : (r.old_col != "" && r.new_col != "") = true := by
        simp [hc.1, hc.2]
      rw [if_pos hcb, if_pos hc, lookup_dinsert]
      rw [hT r.old_tbl]
      by_cases hp : p = ((specTableMap (rows ++ [r]) r.old_tbl).getD r.old_tbl, r.old_col)
      · rw [if_pos hp]
        have : (List.filter (fun e => decide (e.1 = p))
            [(((specTableMap (rows ++ [r]) r.old_tbl).getD r.old_tbl, r.old_col),
              ((specTableMap (rows ++ [r]) r.old_tbl).getD r.old_tbl, r.new_col))]) =
            [(((specTableMap (rows ++ [r]) r.old_tbl).getD r.old_tbl, r.old_col),
              ((specTableMap (rows ++ [r]) r.old_tbl).getD r.old_tbl, r.new_col))] := by
          simp [List.filter, hp.symm]
        rw [this]
        simp
      · rw [if_neg hp]
        have hne : (((specTableMap (rows ++ [r]) r.old_tbl).getD r.old_tbl, r.old_col) :
            String × String) ≠ p := fun hcon => hp hcon.symm
        have : (List.filter (fun e => decide (e.1 = p))
            [(((specTableMap (rows ++ [r]) r.old_tbl).getD r.old_tbl, r.old_col),
              ((specTableMap (rows ++ [r]) r.old_tbl).getD r.old_tbl, r.new_col))]) = [] := by
          simp [List.filter, hne]
        rw [this]
        simp only [List.getLast?, Option.none_or]
        exact ihC p
    · have hcb : ¬((r.old_col != "" && r.new_col != "") = true) := by
        simp only [Bool.and_eq_true, bne_iff_ne]
        intro hcon
        exact hc ⟨hcon.1, hcon.2⟩
      rw [if_neg hcb, if_neg hc]
      simp only [List.filter_nil, List.getLast?, Option.none_or]
      exact ihC p

theorem dwLength_le (p : Char → Bool) (l : List Char) : (l.dropWhile p).length ≤ l.length := by
  induction l with
  | nil => simp [List.dropWhile]
  | cons a t ih =>
    simp only [List.dropWhile, List.length_cons]
    split
    · omega
    · simp [List.length_cons]

theorem takeWhile_append_block {p : Char → Bool} {d : Char} (hd : p d = false)
    (xs ys : List Char) : (xs ++ d :: ys).takeWhile p = xs.takeWhile p := by
  induction xs with
  | nil => simp [List.takeWhile, hd]
  | cons c xs ih =>
    simp only [List.cons_append, List.takeWhile]
    split
    · exact congrArg (fun t => c :: t) ih
    · rfl

theorem dropWhile_append_block {p : Char → Bool} {d : Char} (hd : p d = false)
    (xs ys : List Char) : (xs ++ d :: ys).dropWhile p = xs.dropWhile p ++ d :: ys := by
  induction xs with
  | nil => simp [List.dropWhile, hd]
  | cons c xs ih =>
    simp only [List.cons_append, List.dropWhile]
    split
    · exact ih
    · rfl

theorem tryA_append_sep {prev : Option Char} {a z : List Char} {m : Nat} {r l2 : List Char}
    (h : tryA prev (a ++ '[' :: z) = some (m, r, l2)) :
    ∃ a2 : List Char, l2 = a2 ++ '[' :: z ∧ a2.length < a.length := by
  match a with
  | [] =>
    simp only [List.nil_append, tryA] at h
    rw [if_neg (fun hcon => absurd hcon.1 (by decide))] at h
    cases h
  | c :: a1 =>
    rw [show ((c :: a1) ++ '[' :: z) = (c :: (a1 ++ '[' :: z)) from rfl] at h
    simp only [tryA] at h
    rw [show (c :: (a1 ++ '[' :: z)) = ((c :: a1) ++ '[' :: z) from rfl] at h
    rw [takeWhile_append_block (by decide) (c :: a1) z,
      dropWhile_append_block (by decide) (c :: a1) z,
      takeWhile_append_block (by decide) ((c :: a1).dropWhile (fun x => x = sq)) z,
      dropWhile_append_block (by decide) ((c :: a1).dropWhile (fun x => x = sq)) z] at h
    split at h
    · rename_i hcond
      split at h
      · split at h
        · rename_i hgood
          cases h
          have hmle : (((c :: a1).takeWhile (fun x => x = sq)).length) ≤
              ((((c :: a1).dropWhile (fun x => x = sq)).dropWhile isWordSpace)).length := by
            by_contra hgt
            push_neg at hgt
            have hmem : '[' ∈ (((((c :: a1).dropWhile (fun x => x = sq)).dropWhile isWordSpace))
                ++ '[' :: z).take ((c :: a1).takeWhile (fun x => x = sq)).length := by
              rw [List.take_append_eq_append_take]
              refine List.mem_append.mpr (Or.inr ?_)
              obtain ⟨n, hn⟩ : ∃ n, ((c :: a1).takeWhile (fun x => x = sq)).length -
                  ((((c :: a1).dropWhile (fun x => x = sq)).dropWhile isWordSpace)).length =
                    n + 1 :=
                ⟨_, (Nat.succ_pred_eq_of_pos (by omega)).symm⟩
              rw [hn]
              simp [List.take]
            rw [hgood.2.2] at hmem
            exact absurd (List.eq_of_mem_replicate hmem) (by decide)
          refine ⟨(((c :: a1).dropWhile (fun x => x = sq)).dropWhile isWordSpace).drop
              ((c :: a1).takeWhile (fun x => x = sq)).length, ?_, ?_⟩
          · rw [List.drop_append_eq_append_drop]
            rw [show ((c :: a1).takeWhile (fun x => x = sq)).length -
                ((((c :: a1).dropWhile (fun x => x = sq)).dropWhile isWordSpace)).length = 0
              from by omega]
            rfl
          · have h2 : ((c :: a1).dropWhile (fun x => x = sq)) =
                a1.dropWhile (fun x => x = sq) := by
              rw [List.dropWhile_cons_of_pos]
              simp [hcond.1]
            have h3 := dwLength_le (fun x => x = sq) a1
            have h4 := dwLength_le isWordSpace ((c :: a1).dropWhile (fun x => x = sq))
            rw [h2] at h4
            rw [List.length_drop, h2]
            simp only [List.length_cons]
            omega
        · cases h
      · cases h
    · cases h

theorem tryB_append_sep {prev : Option Char} {a z w l1 : List Char}
    (h : tryB prev (a ++ '[' :: z) = some (w, l1)) :
    ∃ a2 : List Char, l1 = a2 ++ '[' :: z ∧ a2.length < a.length := by
  match a with
  | [] =>
    simp only [List.nil_append, tryB] at h
    rw [if_neg (fun hcon => by
      rw [show isWordChar '[' = false from by decide] at hcon
      simp at hcon)] at h
    cases h
  | c :: a1 =>
    rw [show ((c :: a1) ++ '[' :: z) = (c :: (a1 ++ '[' :: z)) from rfl] at h
    simp only [tryB] at h
    rw [show (c :: (a1 ++ '[' :: z)) = ((c :: a1) ++ '[' :: z) from rfl] at h
    rw [takeWhile_append_block (by decide) (c :: a1) z,
      dropWhile_append_block (by decide) (c :: a1) z] at h
    split at h
    · rename_i hcond
      split at h
      · cases h
      · cases h
        refine ⟨(c :: a1).dropWhile isWordChar, rfl, ?_⟩
        have h2 : ((c :: a1).dropWhile isWordChar) = a1.dropWhile isWordChar := by
          rw [List.dropWhile_cons_of_pos]
          exact ((Bool.and_eq_true _ _).mp hcond).1
        have h3 := dwLength_le isWordChar a1
        rw [h2]
        simp only [List.length_cons]
        omega
    · cases h

theorem scan_word_block (tm : TableMap) (w b : List Char)
    (hw : ∀ c ∈ w, isWordChar c = true) :
    ∀ (fuel : Nat) (prev : Option Char),
      ∃ b2, subTableAux tm fuel prev (w ++ ']' :: b) = w ++ ']' :: b2 := by
  induction w with
  | nil =>
    intro fuel prev
    match fuel with
    | 0 => exact ⟨b, rfl⟩
    | fuel + 1 =>
      refine ⟨subTableAux tm fuel (some ']') b, ?_⟩
      simp only [List.nil_append, subTableAux]
      rw [show tryA prev (']' :: b) = none from by
        simp only [tryA]
        rw [if_neg (fun hcon => absurd hcon.1 (by decide))]]
      rw [show tryB prev (']' :: b) = none from by
        simp only [tryB]
        rw [if_neg (fun hcon => by
          rw [show isWordChar ']' = false from by decide] at hcon
          simp at hcon)]]
  | cons c w1 ih =>
    intro fuel prev
    match fuel with
    | 0 => exact ⟨b, rfl⟩
    | fuel + 1 =>
      have hc : isWordChar c = true := hw c (by simp)
      have hw1 : ∀ x ∈ w1, isWordChar x = true := fun x hx => hw x (by simp [hx])
      obtain ⟨b2, hb2⟩ := ih hw1 fuel (some c)
      refine ⟨b2, ?_⟩
      rw [show ((c :: w1) ++ ']' :: b) = (c :: (w1 ++ ']' :: b)) from rfl]
      simp only [subTableAux]
      rw [show tryA prev (c :: (w1 ++ ']' :: b)) = none from by
        simp only [tryA]
        rw [if_neg (fun hcon => by
          have := hcon.1
          subst this
          exact absurd hc (by decide))]]
      rw [show tryB prev (c :: (w1 ++ ']' :: b)) = none from by
        simp only [tryB]
        rw [show (c :: (w1 ++ ']' :: b)) = ((c :: w1) ++ ']' :: b) from rfl,
          takeWhile_append_block (by decide) (c :: w1) b,
          dropWhile_append_block (by decide) (c :: w1) b]
        split
        · rw [show ((c :: w1).dropWhile isWordChar) = [] from
            List.dropWhile_eq_nil_iff.mpr (fun x hx => hw x hx)]
          rw [if_pos (by rfl)]
        · rfl]
      rw [hb2]
      rfl

theorem subTableAux_cons (tm : TableMap) (fuel : Nat) (prev : Option Char) (c : Char)
    (rest : List Char) :
    subTableAux tm (fuel + 1) prev (c :: rest) =
      match tryA prev (c :: rest) with
      | some (m, r, l2) => replTableQuoted tm m r ++ subTableAux tm fuel (some sq) l2
      | none =>
        match tryB prev (c :: rest) with
        | some (w, l1) => replTableBare tm w ++ subTableAux tm fuel (some (w.getLastD c)) l1
        | none => c :: subTableAux tm fuel (some c) rest := rfl

theorem scan_bracket_start (tm : TableMap) (w b : List Char)
    (hw : ∀ c ∈ w, isWordChar c = true) :
    ∀ (fuel : Nat) (prev : Option Char),
      ∃ b2, subTableAux tm fuel prev ('[' :: (w ++ ']' :: b)) = '[' :: (w ++ ']' :: b2) := by
  intro fuel prev
  match fuel with
  | 0 => exact ⟨b, rfl⟩
  | fuel + 1 =>
    obtain ⟨b2, hb2⟩ := scan_word_block tm w b hw fuel (some '[')
    refine ⟨b2, ?_⟩
    rw [subTableAux_cons]
    rw [show tryA prev ('[' :: (w ++ ']' :: b)) = none from by
      simp only [tryA]
      rw [if_neg (fun hcon => absurd hcon.1 (by decide))]]
    rw [show tryB prev ('[' :: (w ++ ']' :: b)) = none from by
      simp only [tryB]
      rw [if_neg (fun hcon => by
        rw [show isWordChar '[' = false from by decide] at hcon
        simp at hcon)]]
    rw [hb2]

theorem scan_sep (tm : TableMap) (w b : List Char)
    (hw : ∀ c ∈ w, isWordChar c = true) :
    ∀ (n : Nat) (a : List Char) (fuel : Nat) (prev : Option Char), a.length ≤ n →
      ∃ a2 b2, subTableAux tm fuel prev (a ++ '[' :: (w ++ ']' :: b)) =
        a2 ++ '[' :: (w ++ ']' :: b2) := by
  intro n
  induction n with
  | zero =>
    intro a fuel prev hlen
    have ha : a = [] := List.length_eq_zero.mp (Nat.le_zero.mp hlen)
    subst ha
    obtain ⟨b2, h⟩ := scan_bracket_start tm w b hw fuel prev
    exact ⟨[], b2, h⟩
  | succ n ihn =>
    intro a fuel prev hlen
    match a with
    | [] =>
      obtain ⟨b2, h⟩ := scan_bracket_start tm w b hw fuel prev
      exact ⟨[], b2, h⟩
    | c :: a1 =>
      match fuel with
      | 0 => exact ⟨c :: a1, b, rfl⟩
      | fuel + 1 =>
        rw [show ((c :: a1) ++ '[' :: (w ++ ']' :: b)) =
          (c :: (a1 ++ '[' :: (w ++ ']' :: b))) from rfl]
        cases hA : tryA prev (c :: (a1 ++ '[' :: (w ++ ']' :: b))) with
        | some val =>
          obtain ⟨m, r, l2⟩ := val
          obtain ⟨a3, hl2, hlen3⟩ := tryA_append_sep (a := c :: a1) (z := w ++ ']' :: b) hA
          obtain ⟨a2, b2, hrec⟩ := ihn a3 fuel (some sq)
            (by simp only [List.length_cons] at hlen hlen3; omega)
          refine ⟨replTableQuoted tm m r ++ a2, b2, ?_⟩
          rw [subTableAux_cons, hA]
          show replTableQuoted tm m r ++ subTableAux tm fuel (some sq) l2 = _
          rw [hl2, hrec, List.append_assoc]
        | none =>
          cases hB : tryB prev (c :: (a1 ++ '[' :: (w ++ ']' :: b))) with
          | some val =>
            obtain ⟨w0, l1⟩ := val
            obtain ⟨a3, hl1, hlen3⟩ := tryB_append_sep (a := c :: a1) (z := w ++ ']' :: b) hB
            obtain ⟨a2, b2, hrec⟩ := ihn a3 fuel (some (w0.getLastD c))
              (by simp only [List.length_cons] at hlen hlen3; omega)
            refine ⟨replTableBare tm w0 ++ a2, b2, ?_⟩
            rw [subTableAux_cons, hA, hB]
            show replTableBare tm w0 ++ subTableAux tm fuel (some (w0.getLastD c)) l1 = _
            rw [hl1, hrec, List.append_assoc]
          | none =>
            obtain ⟨a2, b2, hrec⟩ := ihn a1 fuel (some c)
              (by simp only [List.length_cons] at hlen; omega)
            refine ⟨c :: a2, b2, ?_⟩
            rw [subTableAux_cons, hA, hB]
            show c :: subTableAux tm fuel (some c) (a1 ++ '[' :: (w ++ ']' :: b)) = _
            rw [hrec]
            rfl

/-- C4 amended: for every table map and every input containing a
bracketed region whose content is a single nonempty word run (the standard
`[Column]` shape), the table pass (column map absent) leaves that region
intact: the output still contains `[` ++ w ++ `]` with the same `w`.
Bracketed text that is not a single word run can be altered (see the
counterexample). -/
theorem c4_table_pass_preserves_bracketed_word (tm : TableMap) (a w b : List Char)
    (hw : ∀ c ∈ w, isWordChar c = true) (hne : w ≠ []) :
    ∃ a2 b2, (PU.update_dax_expression (String.mk (a ++ '[' :: (w ++ ']' :: b))) tm []).data =
      a2 ++ '[' :: (w ++ ']' :: b2) := by
  have hw2 := hne
  unfold PU.update_dax_expression
  by_cases htm : tm.isEmpty
  · refine ⟨a, b, ?_⟩
    simp [htm]
  · obtain ⟨a2, b2, h⟩ := scan_sep tm w b hw (a.length) a
      (String.mk (a ++ '[' :: (w ++ ']' :: b))).data.length none le_rfl
    refine ⟨a2, b2, ?_⟩
    simp only [htm, Bool.false_eq_true, if_false, List.isEmpty_nil, if_true]
    exact h

/-- C4 amended witness: the bracketed word `Amount` survives the table
pass even though `Amount` is a table-map key. -/
theorem c4_table_pass_preserves_bracketed_word_witness :
    (∀ c ∈ ("Amount".data : List Char), isWordChar c = true) ∧
    ("Amount".data : List Char) ≠ [] ∧
    ∃ a2 b2, (PU.update_dax_expression (String.mk ([] ++ '[' :: ("Amount".data ++ ']' :: [])))
        [("Amount", "X")] []).data = a2 ++ '[' :: ("Amount".data ++ ']' :: b2) :=
  ⟨by decide, by decide,
    c4_table_pass_preserves_bracketed_word [("Amount", "X")] [] _ [] (by decide) (by decide)⟩

theorem jsize_pos (j : JSON) : 1 ≤ jsize j := by
  cases j <;> simp [jsize]

theorem getPath_str (s : String) (p : PathElem) (ps : List PathElem) :
    getPath (.str s) (p :: ps) = none := by
  cases p <;> rfl

theorem presFF_refl (x : JSON) : PresFF x x := fun _ _ h => h

theorem presFF_str (s t : String) : PresFF (.str s) (.str t) := by
  intro ps e h
  cases ps with
  | nil => simp [getPath] at h
  | cons p ps2 =>
    rw [List.cons_append] at h
    cases p <;> simp [getPath] at h

theorem presFF_setKey {kvs : List (String × JSON)} {a : String} {v v2 : JSON}
    (ha : a ≠ "filter") (hlook : kvs.lookup a = some v) (hp : PresFF v v2) :
    PresFF (.obj kvs) (.obj (setKey kvs a v2)) := by
  intro ps e h
  cases ps with
  | nil =>
    simp only [List.nil_append, getPath] at h ⊢
    rw [lookup_setKey_ne (fun hcon => ha hcon.symm)]
    exact h
  | cons p ps2 =>
    rw [List.cons_append] at h ⊢
    cases p with
    | idx n => simp [getPath] at h
    | key k2 =>
      by_cases hk2 : k2 = a
      · subst hk2
        simp only [getPath, hlook] at h
        have hsk : (setKey kvs k2 v2).lookup k2 = some v2 :=
          lookup_setKey_self (show (kvs.lookup k2).isSome from by simp [hlook])
        simp only [getPath, hsk]
        exact hp ps2 e h
      · simp only [getPath] at h ⊢
        rw [lookup_setKey_ne hk2]
        exact h

theorem presFF_arr_cons {x x2 : JSON} {xs xs2 : List JSON} (h1 : PresFF x x2)
    (h2 : PresFF (.arr xs) (.arr xs2)) : PresFF (.arr (x :: xs)) (.arr (x2 :: xs2)) := by
  intro ps e h
  cases ps with
  | nil => simp [getPath] at h
  | cons p ps2 =>
    rw [List.cons_append] at h ⊢
    cases p with
    | key k2 => simp [getPath] at h
    | idx n =>
      cases n with
      | zero =>
        simp only [getPath, List.getElem?_cons_zero] at h ⊢
        exact h1 ps2 e h
      | succ n =>
        simp only [getPath, List.getElem?_cons_succ] at h ⊢
        have := h2 (.idx n :: ps2) e
        simp only [List.cons_append, getPath] at this
        exact this h

theorem whereCond_pres {look : String → String → Option String} {fe cond c2 : JSON} {b : Bool}
    (h : whereCond look fe cond = .ok (c2, b)) : PresFF cond c2 := by
  cases cond with
  | obj ckvs =>
    simp only [whereCond] at h
    repeat' split at h
    all_goals cases h
    all_goals try exact presFF_refl _
    refine presFF_setKey (by decide) (by assumption) ?_
    refine presFF_setKey (by decide) (by assumption) ?_
    refine presFF_setKey (by decide) (by assumption) ?_
    refine presFF_setKey (by decide) (by assumption) ?_
    refine presFF_setKey (by decide) (by assumption) ?_
    refine presFF_arr_cons ?_ (presFF_refl _)
    refine presFF_setKey (by decide) (by assumption) ?_
    refine presFF_setKey (by decide) (by assumption) ?_
    exact presFF_str _ _
  | null => simp [whereCond] at h
  | bool x => simp [whereCond] at h
  | num x => simp [whereCond] at h
  | str x => simp [whereCond] at h
  | arr x => simp [whereCond] at h

theorem whereList_pres {look : String → String → Option String} {fe : JSON} {conds conds2 : List JSON}
    {b : Bool} (h : whereList look fe conds = .ok (conds2, b)) :
    PresFF (.arr conds) (.arr conds2) := by
  induction conds generalizing conds2 b with
  | nil =>
    simp only [whereList] at h
    cases h
    exact presFF_refl _
  | cons cnd rest ih =>
    simp only [whereList] at h
    repeat' split at h
    all_goals cases h
    all_goals exact presFF_arr_cons (whereCond_pres (by assumption)) (ih (by assumption))

theorem filterProc_pres {look : String → String → Option String} {k : String} {v : JSON}
    {out : String × JSON} {b : Bool} (h : filterProc look k v = .ok (out, b)) :
    out.1 = k ∧ PresFF v out.2 ∧
      (∀ e, getPath v [.key "From"] = some e → getPath out.2 [.key "From"] = some e) := by
  cases v with
  | obj kvs =>
    simp only [filterProc] at h
    repeat' split at h
    all_goals cases h
    all_goals try exact ⟨rfl, presFF_refl _, fun e he => he⟩
    all_goals
      refine ⟨rfl, ?_, ?_⟩
      · exact presFF_setKey (by decide) (by assumption) (whereList_pres (by assumption))
      · intro e he
        simp only [getPath] at he ⊢
        rw [lookup_setKey_ne (by decide)]
        exact he
  | str x =>
    simp only [filterProc] at h
    repeat' split at h
    all_goals cases h
    all_goals exact ⟨rfl, presFF_refl _, fun e he => he⟩
  | arr x =>
    simp only [filterProc] at h
    repeat' split at h
    all_goals cases h
    all_goals exact ⟨rfl, presFF_refl _, fun e he => he⟩
  | null => simp [filterProc] at h
  | bool x => simp [filterProc] at h
  | num x => simp [filterProc] at h

theorem presFF_trans {x y z : JSON} (h1 : PresFF x y) (h2 : PresFF y z) : PresFF x z :=
  fun ps e h => h2 ps e (h1 ps e h)

theorem getPath_append (x : JSON) (l1 l2 : List PathElem) :
    getPath x (l1 ++ l2) = (getPath x l1).bind (fun y => getPath y l2) := by
  induction l1 generalizing x with
  | nil => simp [getPath]
  | cons p l1 ih =>
    cases x with
    | obj kvs =>
      cases p with
      | key k =>
        simp only [List.cons_append, getPath]
        cases kvs.lookup k with
        | none => simp
        | some v => simp [ih]
      | idx n => simp [getPath]
    | arr xs =>
      cases p with
      | key k => simp [getPath]
      | idx n =>
        simp only [List.cons_append, getPath]
        cases xs[n]? with
        | none => simp
        | some v => simp [ih]
    | null => cases p <;> simp [getPath]
    | bool c => cases p <;> simp [getPath]
    | num c => cases p <;> simp [getPath]
    | str c => cases p <;> simp [getPath]

theorem lookup_forall2 {kvs kvs2 : List (String × JSON)}
    (h : List.Forall₂ EntryRel kvs kvs2) (k : String) (v : JSON)
    (hl : kvs.lookup k = some v) :
    ∃ v2, kvs2.lookup k = some v2 ∧ EntryRel (k, v) (k, v2) := by
  induction h with
  | nil => simp [List.lookup] at hl
  | cons hrel hrest ih =>
    rename_i p p2 rest rest2
    obtain ⟨k1, v1⟩ := p
    obtain ⟨k2, w2⟩ := p2
    obtain ⟨hk, hpres, hfil⟩ := hrel
    simp only at hk
    subst hk
    by_cases hek : k1 = k
    · subst hek
      simp only [List.lookup, beq_self_eq_true] at hl ⊢
      cases hl
      exact ⟨w2, rfl, ⟨rfl, hpres, hfil⟩⟩
    · have hb : (k == k1) = false := beq_eq_false_iff_ne.mpr (fun hcon => hek hcon.symm)
      simp only [List.lookup, hb] at hl ⊢
      exact ih hl

theorem presFF_obj_of_forall2 {kvs kvs2 : List (String × JSON)}
    (hf : List.Forall₂ EntryRel kvs kvs2) : PresFF (.obj kvs) (.obj kvs2) := by
  intro ps e h
  cases ps with
  | nil =>
    simp only [List.nil_append, getPath] at h ⊢
    cases hl : kvs.lookup "filter" with
    | none => rw [hl] at h; simp at h
    | some v =>
      rw [hl] at h
      obtain ⟨v2, hl2, hrel⟩ := lookup_forall2 hf _ _ hl
      rw [hl2]
      exact hrel.2.2 rfl e h
  | cons p ps2 =>
    cases p with
    | idx n => simp [getPath] at h
    | key k =>
      simp only [List.cons_append, getPath] at h ⊢
      cases hl : kvs.lookup k with
      | none => rw [hl] at h; simp at h
      | some v =>
        rw [hl] at h
        obtain ⟨v2, hl2, hrel⟩ := lookup_forall2 hf _ _ hl
        rw [hl2]
        exact hrel.2.1 ps2 e h

theorem colMeasProc_presPU {cm : PU.ColumnMap} {k : String} {v : JSON}
    {out : String × JSON} {b : Bool} (h : PU.colMeasProc cm k v = .ok (out, b)) :
    out.1 = k ∧ PresFF v out.2 := by
  cases v with
  | obj kvs =>
    simp only [PU.colMeasProc] at h
    repeat' split at h
    all_goals cases h
    all_goals try exact ⟨rfl, presFF_refl _⟩
    rename_i cj1 k1 hgd1 cj2 k2 hgd2 htr hh oj1 oj2 e p hent hprop os1 newp hcm
    have hexp : kvs.lookup "Expression" = some (.obj k1) := by
      cases hx : kvs.lookup "Expression" with
      | none =>
        rw [hx] at hgd1
        simp only [Option.getD, JSON.obj.injEq] at hgd1
        rw [← hgd1] at hgd2
        simp only [List.lookup, Option.getD, JSON.obj.injEq] at hgd2
        rw [← hgd2] at hent
        simp [List.lookup] at hent
      | some w =>
        rw [hx] at hgd1
        simp only [Option.getD] at hgd1
        rw [hgd1]
    have hsr : k1.lookup "SourceRef" = some (.obj k2) := by
      cases hx : k1.lookup "SourceRef" with
      | none =>
        rw [hx] at hgd2
        simp only [Option.getD, JSON.obj.injEq] at hgd2
        rw [← hgd2] at hent
        simp [List.lookup] at hent
      | some w =>
        rw [hx] at hgd2
        simp only [Option.getD] at hgd2
        rw [hgd2]
    have h1 : PresFF (.obj kvs) (.obj (setKey kvs "Expression"
        (.obj (setKey k1 "SourceRef" (.obj (setKey k2 "Entity" (.str e))))))) :=
      presFF_setKey (by decide) hexp
        (presFF_setKey (by decide) hsr (presFF_setKey (by decide) hent (presFF_str _ _)))
    refine ⟨rfl, presFF_trans h1 (presFF_setKey (by decide) ?_ (presFF_str p newp))⟩
    rw [lookup_setKey_ne (by decide)]
    exact hprop
  | null => simp [PU.colMeasProc] at h
  | bool c => simp [PU.colMeasProc] at h
  | num c => simp [PU.colMeasProc] at h
  | str c => simp [PU.colMeasProc] at h
  | arr c => simp [PU.colMeasProc] at h

theorem colMeasProc_presUA {cm : UA.ColumnMap} {k : String} {v : JSON}
    {out : String × JSON} {b : Bool} (h : UA.colMeasProc cm k v = .ok (out, b)) :
    out.1 = k ∧ PresFF v out.2 := by
  cases v with
  | obj kvs =>
    simp only [UA.colMeasProc] at h
    repeat' split at h
    all_goals cases h
    all_goals try exact ⟨rfl, presFF_refl _⟩
    rename_i cj1 k1 hgd1 cj2 k2 hgd2 htr hh oj1 oj2 e p hent hprop os1 newt newp hcm
    have hexp : kvs.lookup "Expression" = some (.obj k1) := by
      cases hx : kvs.lookup "Expression" with
      | none =>
        rw [hx] at hgd1
        simp only [Option.getD, JSON.obj.injEq] at hgd1
        rw [← hgd1] at hgd2
        simp only [List.lookup, Option.getD, JSON.obj.injEq] at hgd2
        rw [← hgd2] at hent
        simp [List.lookup] at hent
      | some w =>
        rw [hx] at hgd1
        simp only [Option.getD] at hgd1
        rw [hgd1]
    have hsr : k1.lookup "SourceRef" = some (.obj k2) := by
      cases hx : k1.lookup "SourceRef" with
      | none =>
        rw [hx] at hgd2
        simp only [Option.getD, JSON.obj.injEq] at hgd2
        rw [← hgd2] at hent
        simp [List.lookup] at hent
      | some w =>
        rw [hx] at hgd2
        simp only [Option.getD] at hgd2
        rw [hgd2]
    have h1 : PresFF (.obj kvs) (.obj (setKey kvs "Expression"
        (.obj (setKey k1 "SourceRef" (.obj (setKey k2 "Entity" (.str newt))))))) :=
      presFF_setKey (by decide) hexp
        (presFF_setKey (by decide) hsr (presFF_setKey (by decide) hent (presFF_str _ _)))
    refine ⟨rfl, presFF_trans h1 (presFF_setKey (by decide) ?_ (presFF_str p newp))⟩
    rw [lookup_setKey_ne (by decide)]
    exact hprop
  | null => simp [UA.colMeasProc] at h
  | bool c => simp [UA.colMeasProc] at h
  | num c => simp [UA.colMeasProc] at h
  | str c => simp [UA.colMeasProc] at h
  | arr c => simp [UA.colMeasProc] at h

theorem prop_pres_allPU (cm : PU.ColumnMap) : ∀ n : Nat,
    (∀ j j2 b, 2 * jsize j ≤ n → PU.update_property cm j = .ok (j2, b) → PresFF j j2) ∧
    (∀ xs xs2 b, 2 * jsizeL xs ≤ n → PU.propList cm xs = .ok (xs2, b) →
      PresFF (.arr xs) (.arr xs2)) ∧
    (∀ kvs kvs2 b, 2 * jsizeO kvs ≤ n → PU.propObj cm kvs = .ok (kvs2, b) →
      List.Forall₂ EntryRel kvs kvs2) ∧
    (∀ k v out b, 2 * jsize v + 1 ≤ n → PU.propEntry cm k v = .ok (out, b) →
      EntryRel (k, v) out) := by
  intro n
  induction n with
  | zero =>
    refine ⟨?_, ?_, ?_, ?_⟩
    · intro j j2 b hn h
      have := jsize_pos j
      omega
    · intro xs xs2 b hn h
      cases xs with
      | nil =>
        simp only [PU.propList] at h
        cases h
        exact presFF_refl _
      | cons x rest =>
        simp only [jsizeL] at hn
        omega
    · intro kvs kvs2 b hn h
      cases kvs with
      | nil =>
        simp only [PU.propObj] at h
        cases h
        exact List.Forall₂.nil
      | cons pr rest =>
        obtain ⟨k, v⟩ := pr
        simp only [jsizeO] at hn
        omega
    · intro k v out b hn h
      omega
  | succ n ih =>
    obtain ⟨ihJ, ihL, ihO, ihE⟩ := ih
    refine ⟨?_, ?_, ?_, ?_⟩
    · intro j j2 b hn h
      cases j with
      | obj kvs =>
        simp only [PU.update_property] at h
        split at h
        · cases h
          refine presFF_obj_of_forall2 (ihO kvs _ _ ?_ (by assumption))
          simp only [jsize] at hn
          omega
        · cases h
      | arr xs =>
        simp only [PU.update_property] at h
        split at h
        · cases h
          refine ihL xs _ _ ?_ (by assumption)
          simp only [jsize] at hn
          omega
        · cases h
      | null =>
        simp only [PU.update_property] at h
        cases h
        exact presFF_refl _
      | bool c =>
        simp only [PU.update_property] at h
        cases h
        exact presFF_refl _
      | num c =>
        simp only [PU.update_property] at h
        cases h
        exact presFF_refl _
      | str c =>
        simp only [PU.update_property] at h
        cases h
        exact presFF_refl _
    · intro xs xs2 b hn h
      cases xs with
      | nil =>
        simp only [PU.propList] at h
        cases h
        exact presFF_refl _
      | cons x rest =>
        simp only [PU.propList] at h
        repeat' split at h
        all_goals cases h
        refine presFF_arr_cons ?_ ?_
        · refine ihJ x _ _ ?_ (by assumption)
          simp only [jsizeL] at hn
          omega
        · refine ihL rest _ _ ?_ (by assumption)
          simp only [jsizeL] at hn
          omega
    · intro kvs kvs2 b hn h
      cases kvs with
      | nil =>
        simp only [PU.propObj] at h
        cases h
        exact List.Forall₂.nil
      | cons pr rest =>
        obtain ⟨k, v⟩ := pr
        simp only [PU.propObj] at h
        repeat' split at h
        all_goals cases h
        refine List.Forall₂.cons ?_ ?_
        · refine ihE k v _ _ ?_ (by assumption)
          simp only [jsizeO] at hn
          omega
        · refine ihO rest _ _ ?_ (by assumption)
          simp only [jsizeO] at hn
          omega
    · intro k v out b hn h
      rw [PU.propEntry.eq_def] at h
      by_cases hk1 : k = "Column" ∨ k = "Measure"
      · rw [if_pos hk1] at h
        obtain ⟨ho1, ho2⟩ := colMeasProc_presPU h
        refine ⟨ho1.symm, ho2, ?_⟩
        intro hf
        have hf2 : k = "filter" := hf
        subst hf2
        rcases hk1 with hc | hc <;> exact absurd hc (by decide)
      · rw [if_neg hk1] at h
        by_cases hk2 : k = "expression"
        · rw [if_pos hk2] at h
          cases v with
          | str s =>
            simp at h
            obtain ⟨h1, h2⟩ := h
            refine ⟨?_, ?_, ?_⟩
            · simp [← h1]
            · rw [← h1]
              exact presFF_str _ _
            · intro hf
              subst hk2
              exact absurd (show ("expression" : String) = "filter" from hf) (by decide)
          | null =>
            simp only at h
            split at h
            · cases h
              refine ⟨rfl, ihJ _ _ _ ?_ (by assumption), ?_⟩
              · simp only [jsize] at hn ⊢
                omega
              · intro hf
                subst hk2
                exact absurd (show ("expression" : String) = "filter" from hf) (by decide)
            · cases h
          | bool c =>
            simp only at h
            split at h
            · cases h
              refine ⟨rfl, ihJ _ _ _ ?_ (by assumption), ?_⟩
              · simp only [jsize] at hn ⊢
                omega
              · intro hf
                subst hk2
                exact absurd (show ("expression" : String) = "filter" from hf) (by decide)
            · cases h
          | num c =>
            simp only at h
            split at h
            · cases h
              refine ⟨rfl, ihJ _ _ _ ?_ (by assumption), ?_⟩
              · simp only [jsize] at hn ⊢
                omega
              · intro hf
                subst hk2
                exact absurd (show ("expression" : String) = "filter" from hf) (by decide)
            · cases h
          | arr c =>
            simp only at h
            split at h
            · cases h
              refine ⟨rfl, ihJ _ _ _ ?_ (by assumption), ?_⟩
              · simp only [jsize] at hn ⊢
                omega
              · intro hf
                subst hk2
                exact absurd (show ("expression" : String) = "filter" from hf) (by decide)
            · cases h
          | obj c =>
            simp only at h
            split at h
            · cases h
              refine ⟨rfl, ihJ _ _ _ ?_ (by assumption), ?_⟩
              · simp only [jsize] at hn ⊢
                omega
              · intro hf
                subst hk2
                exact absurd (show ("expression" : String) = "filter" from hf) (by decide)
            · cases h
        · rw [if_neg hk2] at h
          by_cases hk3 : k = "filter"
          · rw [if_pos hk3] at h
            obtain ⟨h1, h2, h3⟩ := filterProc_pres h
            exact ⟨h1.symm, h2, fun _ => h3⟩
          · rw [if_neg hk3] at h
            split at h
            · cases h
              refine ⟨rfl, ihJ v _ _ ?_ (by assumption), fun hf => absurd hf hk3⟩
              omega
            · cases h

theorem prop_pres_allUA (cm : UA.ColumnMap) : ∀ n : Nat,
    (∀ j j2 b, 2 * jsize j ≤ n → UA.update_property cm j = .ok (j2, b) → PresFF j j2) ∧
    (∀ xs xs2 b, 2 * jsizeL xs ≤ n → UA.propList cm xs = .ok (xs2, b) →
      PresFF (.arr xs) (.arr xs2)) ∧
    (∀ kvs kvs2 b, 2 * jsizeO kvs ≤ n → UA.propObj cm kvs = .ok (kvs2, b) →
      List.Forall₂ EntryRel kvs kvs2) ∧
    (∀ k v out b, 2 * jsize v + 1 ≤ n → UA.propEntry cm k v = .ok (out, b) →
      EntryRel (k, v) out) := by
  intro n
  induction n with
  | zero =>
    refine ⟨?_, ?_, ?_, ?_⟩
    · intro j j2 b hn h
      have := jsize_pos j
      omega
    · intro xs xs2 b hn h
      cases xs with
      | nil =>
        simp only [UA.propList] at h
        cases h
        exact presFF_refl _
      | cons x rest =>
        simp only [jsizeL] at hn
        omega
    · intro kvs kvs2 b hn h
      cases kvs with
      | nil =>
        simp only [UA.propObj] at h
        cases h
        exact List.Forall₂.nil
      | cons pr rest =>
        obtain ⟨k, v⟩ := pr
        simp only [jsizeO] at hn
        omega
    · intro k v out b hn h
      omega
  | succ n ih =>
    obtain ⟨ihJ, ihL, ihO, ihE⟩ := ih
    refine ⟨?_, ?_, ?_, ?_⟩
    · intro j j2 b hn h
      cases j with
      | obj kvs =>
        simp only [UA.update_property] at h
        split at h
        · cases h
          refine presFF_obj_of_forall2 (ihO kvs _ _ ?_ (by assumption))
          simp only [jsize] at hn
          omega
        · cases h
      | arr xs =>
        simp only [UA.update_property] at h
        split at h
        · cases h
          refine ihL xs _ _ ?_ (by assumption)
          simp only [jsize] at hn
          omega
        · cases h
      | null =>
        simp only [UA.update_property] at h
        cases h
        exact presFF_refl _
      | bool c =>
        simp only [UA.update_property] at h
        cases h
        exact presFF_refl _
      | num c =>
        simp only [UA.update_property] at h
        cases h
        exact presFF_refl _
      | str c =>
        simp only [UA.update_property] at h
        cases h
        exact presFF_refl _
    · intro xs xs2 b hn h
      cases xs with
      | nil =>
        simp only [UA.propList] at h
        cases h
        exact presFF_refl _
      | cons x rest =>
        simp only [UA.propList] at h
        repeat' split at h
        all_goals cases h
        refine presFF_arr_cons ?_ ?_
        · refine ihJ x _ _ ?_ (by assumption)
          simp only [jsizeL] at hn
          omega
        · refine ihL rest _ _ ?_ (by assumption)
          simp only [jsizeL] at hn
          omega
    · intro kvs kvs2 b hn h
      cases kvs with
      | nil =>
        simp only [UA.propObj] at h
        cases h
        exact List.Forall₂.nil
      | cons pr rest =>
        obtain ⟨k, v⟩ := pr
        simp only [UA.propObj] at h
        repeat' split at h
        all_goals cases h
        refine List.Forall₂.cons ?_ ?_
        · refine ihE k v _ _ ?_ (by assumption)
          simp only [jsizeO] at hn
          omega
        · refine ihO rest _ _ ?_ (by assumption)
          simp only [jsizeO] at hn
          omega
    · intro k v out b hn h
      rw [UA.propEntry.eq_def] at h
      by_cases hk1 : k = "Column" ∨ k = "Measure"
      · rw [if_pos hk1] at h
        obtain ⟨ho1, ho2⟩ := colMeasProc_presUA h
        refine ⟨ho1.symm, ho2, ?_⟩
        intro hf
        have hf2 : k = "filter" := hf
        subst hf2
        rcases hk1 with hc | hc <;> exact absurd hc (by decide)
      · rw [if_neg hk1] at h
        by_cases hk2 : k = "expression"
        · rw [if_pos hk2] at h
          cases v with
          | str s =>
            simp at h
            obtain ⟨h1, h2⟩ := h
            refine ⟨?_, ?_, ?_⟩
            · simp [← h1]
            · rw [← h1]
              exact presFF_str _ _
            · intro hf
              subst hk2
              exact absurd (show ("expression" : String) = "filter" from hf) (by decide)
          | null =>
            simp only at h
            split at h
            · cases h
              refine ⟨rfl, ihJ _ _ _ ?_ (by assumption), ?_⟩
              · simp only [jsize] at hn ⊢
                omega
              · intro hf
                subst hk2
                exact absurd (show ("expression" : String) = "filter" from hf) (by decide)
            · cases h
          | bool c =>
            simp only at h
            split at h
            · cases h
              refine ⟨rfl, ihJ _ _ _ ?_ (by assumption), ?_⟩
              · simp only [jsize] at hn ⊢
                omega
              · intro hf
                subst hk2
                exact absurd (show ("expression" : String) = "filter" from hf) (by decide)
            · cases h
          | num c =>
            simp only at h
            split at h
            · cases h
              refine ⟨rfl, ihJ _ _ _ ?_ (by assumption), ?_⟩
              · simp only [jsize] at hn ⊢
                omega
              · intro hf
                subst hk2
                exact absurd (show ("expression" : String) = "filter" from hf) (by decide)
            · cases h
          | arr c =>
            simp only at h
            split at h
            · cases h
              refine ⟨rfl, ihJ _ _ _ ?_ (by assumption), ?_⟩
              · simp only [jsize] at hn ⊢
                omega
              · intro hf
                subst hk2
                exact absurd (show ("expression" : String) = "filter" from hf) (by decide)
            · cases h
          | obj c =>
            simp only at h
            split at h
            · cases h
              refine ⟨rfl, ihJ _ _ _ ?_ (by assumption), ?_⟩
              · simp only [jsize] at hn ⊢
                omega
              · intro hf
                subst hk2
                exact absurd (show ("expression" : String) = "filter" from hf) (by decide)
            · cases h
        · rw [if_neg hk2] at h
          by_cases hk3 : k = "filter"
          · rw [if_pos hk3] at h
            obtain ⟨h1, h2, h3⟩ := filterProc_pres h
            exact ⟨h1.symm, h2, fun _ => h3⟩
          · rw [if_neg hk3] at h
            split at h
            · cases h
              refine ⟨rfl, ihJ v _ _ ?_ (by assumption), fun hf => absurd hf hk3⟩
              omega
            · cases h

/-- C10: the property pass (of either module) never modifies anything under
a `filter` node's `From` sequence: any value readable before the pass at a
path that passes through keys `filter` then `From` — in particular
`filter.From[0].Entity` — is readable unchanged at the same path
afterwards; within a `filter` node only the nested `Where` part can
change. -/
theorem c10_property_pass_preserves_filter_from (cmP : PU.ColumnMap) (cmU : UA.ColumnMap)
    (d dP dU : JSON) (bP bU : Bool)
    (hP : PU.update_property cmP d = .ok (dP, bP))
    (hU : UA.update_property cmU d = .ok (dU, bU))
    (ps rest : List PathElem) (e : JSON)
    (h : getPath d (ps ++ [.key "filter", .key "From"] ++ rest) = some e) :
    getPath dP (ps ++ [.key "filter", .key "From"] ++ rest) = some e ∧
    getPath dU (ps ++ [.key "filter", .key "From"] ++ rest) = some e := by
  have hPP : PresFF d dP :=
    (prop_pres_allPU cmP (2 * jsize d)).1 d dP bP (le_refl _) hP
  have hUU : PresFF d dU :=
    (prop_pres_allUA cmU (2 * jsize d)).1 d dU bU (le_refl _) hU
  rw [getPath_append] at h
  obtain ⟨m, hm1, hm2⟩ := Option.bind_eq_some.mp h
  constructor
  · rw [getPath_append, hPP ps m hm1]
    exact hm2
  · rw [getPath_append, hUU ps m hm1]
    exact hm2

/-- Witness for C10 at a concrete filter document: both passes rewrite the
`Where` property yet `filter.From[0].Entity` still reads `Sales`. -/
theorem c10_property_pass_preserves_filter_from_witness :
    getPath (filterDoc "Sales" "Amount")
        ([] ++ [.key "filter", .key "From"] ++ [.idx 0, .key "Entity"]) =
      some (.str "Sales") ∧
    getPath (filterDoc "Sales" "Total")
        ([] ++ [.key "filter", .key "From"] ++ [.idx 0, .key "Entity"]) =
      some (.str "Sales") := by
  refine ⟨rfl, ?_⟩
  have hP : PU.update_property [(("Sales", "Amount"), "Total")] (filterDoc "Sales" "Amount") =
      .ok (filterDoc "Sales" "Total", true) := by
    simp [filterDoc, whereEntry, PU.update_property, PU.propObj, PU.propEntry, filterProc,
      whereList, whereCond, PU.cmLook, PU.colMeasProc, setKey, List.lookup, truthy, hashableJ]
  have hU : UA.update_property [(("Sales", "Amount"), ("Revenue", "Total"))]
        (filterDoc "Sales" "Amount") =
      .ok (filterDoc "Sales" "Total", true) := by
    simp [filterDoc, whereEntry, UA.update_property, UA.propObj, UA.propEntry, filterProc,
      whereList, whereCond, UA.cmLook, UA.colMeasProc, setKey, List.lookup, truthy, hashableJ]
  exact (c10_property_pass_preserves_filter_from _ _ _ _ _ _ _ hP hU
    [] [.idx 0, .key "Entity"] (.str "Sales") rfl).1

theorem mem_of_lookup {α β : Type} [BEq α] [LawfulBEq α] {l : List (α × β)} {k : α} {v : β}
    (h : l.lookup k = some v) : (k, v) ∈ l := by
  induction l with
  | nil => simp [List.lookup] at h
  | cons p rest ih =>
    obtain ⟨k1, v1⟩ := p
    simp only [List.lookup] at h
    split at h
    · rename_i hbeq
      cases h
      have : k = k1 := by simpa using hbeq
      subst this
      exact List.mem_cons_self _ _
    · exact List.mem_cons_of_mem _ (ih h)

theorem tmNonChain_spec {tm : TableMap} (h : tmNonChain tm = true) :
    ∀ a c, tm.lookup a = some c → tm.lookup c = none := by
  intro a c hl
  have hm := mem_of_lookup hl
  have := (List.all_eq_true.mp h) _ hm
  simpa [Option.isNone_iff_eq_none] using this

theorem cmNonChainPU_spec {cm : PU.ColumnMap} (h : cmNonChainPU cm = true) :
    ∀ t c c2, cm.lookup (t, c) = some c2 → cm.lookup (t, c2) = none := by
  intro t c c2 hl
  have hm := mem_of_lookup hl
  have := (List.all_eq_true.mp h) _ hm
  simpa [Option.isNone_iff_eq_none] using this

theorem lookup_none_forall2 {R : (String × JSON) → (String × JSON) → Prop}
    (hkey : ∀ p p2, R p p2 → p.1 = p2.1) {kvs kvs2 : List (String × JSON)}
    (hf : List.Forall₂ R kvs kvs2) {k : String} (hl : kvs.lookup k = none) :
    kvs2.lookup k = none := by
  induction hf with
  | nil => rfl
  | cons hrel hrest ih =>
    rename_i p p2 rest rest2
    obtain ⟨k1, v1⟩ := p
    obtain ⟨k2, w2⟩ := p2
    have hk := hkey _ _ hrel
    simp only at hk
    subst hk
    simp only [List.lookup] at hl ⊢
    split at hl
    · cases hl
    · exact ih hl

theorem lookup_some_forall2 {R : (String × JSON) → (String × JSON) → Prop}
    (hkey : ∀ p p2, R p p2 → p.1 = p2.1) {kvs kvs2 : List (String × JSON)}
    (hf : List.Forall₂ R kvs kvs2) {k : String} {v : JSON} (hl : kvs.lookup k = some v) :
    ∃ v2, kvs2.lookup k = some v2 ∧ R (k, v) (k, v2) := by
  induction hf with
  | nil => simp [List.lookup] at hl
  | cons hrel hrest ih =>
    rename_i p p2 rest rest2
    obtain ⟨k1, v1⟩ := p
    obtain ⟨k2, w2⟩ := p2
    have hk := hkey _ _ hrel
    simp only at hk
    subst hk
    by_cases hek : k1 = k
    · subst hek
      simp only [List.lookup, beq_self_eq_true] at hl ⊢
      cases hl
      exact ⟨w2, rfl, hrel⟩
    · have hb : (k == k1) = false := beq_eq_false_iff_ne.mpr (fun hcon => hek hcon.symm)
      simp only [List.lookup, hb] at hl ⊢
      exact ih hl

theorem noESO_lookup {kvs : List (String × JSON)} {k : String} {w : JSON}
    (hno : noESO kvs = true) (hl : kvs.lookup k = some w) :
    noES w = true ∧ (k == "expression" && isStrJ w) = false := by
  induction kvs with
  | nil => simp [List.lookup] at hl
  | cons p rest ih =>
    obtain ⟨k1, v1⟩ := p
    simp only [noESO, Bool.and_eq_true, Bool.not_eq_true'] at hno
    obtain ⟨⟨h1, h2⟩, h3⟩ := hno
    simp only [List.lookup] at hl
    split at hl
    · rename_i hbeq
      cases hl
      have : k = k1 := by simpa using hbeq
      subst this
      exact ⟨h2, h1⟩
    · exact ih h3 hl

theorem noESO_setKey {kvs : List (String × JSON)} {key : String} {nv : JSON}
    (hno : noESO kvs = true) (hn : noES nv = true)
    (hk : (key == "expression" && isStrJ nv) = false) :
    noESO (setKey kvs key nv) = true := by
  induction kvs with
  | nil => simpa [setKey]
  | cons p rest ih =>
    obtain ⟨k1, v1⟩ := p
    simp only [noESO, Bool.and_eq_true, Bool.not_eq_true'] at hno
    obtain ⟨⟨h1, h2⟩, h3⟩ := hno
    simp only [setKey]
    split
    · simp only [noESO, Bool.and_eq_true, Bool.not_eq_true']
      exact ⟨⟨hk, hn⟩, h3⟩
    · simp only [noESO, Bool.and_eq_true, Bool.not_eq_true']
      exact ⟨⟨h1, h2⟩, ih h3⟩

theorem jmemStr_eq_of_rel {xs xs2 : List JSON}
    (hf : List.Forall₂ (fun e e2 => (isStrJ e = true → e2 = e) ∧
      (isStrJ e = false → isStrJ e2 = false)) xs xs2) (t : String) :
    jmemStr t xs2 = jmemStr t xs := by
  induction hf with
  | nil => rfl
  | cons hrel hrest ih =>
    rename_i e e2 es es2
    simp only [jmemStr, List.any_cons] at ih ⊢
    rw [ih]
    cases e with
    | str u =>
      rw [hrel.1 rfl]
    | null =>
      cases e2 with
      | str u => exact absurd (hrel.2 rfl) (by simp [isStrJ])
      | _ => rfl
    | bool c =>
      cases e2 with
      | str u => exact absurd (hrel.2 rfl) (by simp [isStrJ])
      | _ => rfl
    | num c =>
      cases e2 with
      | str u => exact absurd (hrel.2 rfl) (by simp [isStrJ])
      | _ => rfl
    | arr c =>
      cases e2 with
      | str u => exact absurd (hrel.2 rfl) (by simp [isStrJ])
      | _ => rfl
    | obj c =>
      cases e2 with
      | str u => exact absurd (hrel.2 rfl) (by simp [isStrJ])
      | _ => rfl

theorem entNameStep_false_id {tm : TableMap} {e e1 : JSON}
    (h : PU.entNameStep tm e = .ok (e1, false)) : e1 = e := by
  cases e with
  | obj kvs =>
    simp only [PU.entNameStep] at h
    repeat' split at h
    all_goals cases h
    all_goals rfl
  | str s =>
    simp only [PU.entNameStep] at h
    split at h
    · cases h
    · cases h
      rfl
  | arr xs =>
    simp only [PU.entNameStep] at h
    split at h
    · cases h
    · cases h
      rfl
  | null => simp [PU.entNameStep] at h
  | bool c => simp [PU.entNameStep] at h
  | num c => simp [PU.entNameStep] at h

theorem updE_leaf {tm : TableMap} {j : JSON} (h : isContainer j = false) :
    PU.update_entity tm j = .ok (j, false) := by
  cases j <;> simp [isContainer] at h <;> simp [PU.update_entity]

theorem updP_leaf {cm : PU.ColumnMap} {j : JSON} (h : isContainer j = false) :
    PU.update_property cm j = .ok (j, false) := by
  cases j <;> simp [isContainer] at h <;> simp [PU.update_property]

theorem updE_obj_inv {tm : TableMap} {kvs : List (String × JSON)} {j2 : JSON} {b : Bool}
    (h : PU.update_entity tm (.obj kvs) = .ok (j2, b)) :
    ∃ kvs2, j2 = .obj kvs2 ∧ PU.entObj tm kvs = .ok (kvs2, b) := by
  simp only [PU.update_entity] at h
  split at h
  · cases h
    exact ⟨_, rfl, by assumption⟩
  · cases h

theorem updE_arr_inv {tm : TableMap} {xs : List JSON} {j2 : JSON} {b : Bool}
    (h : PU.update_entity tm (.arr xs) = .ok (j2, b)) :
    ∃ xs2, j2 = .arr xs2 ∧ PU.entList tm xs = .ok (xs2, b) := by
  simp only [PU.update_entity] at h
  split at h
  · cases h
    exact ⟨_, rfl, by assumption⟩
  · cases h

theorem updP_obj_inv {cm : PU.ColumnMap} {kvs : List (String × JSON)} {j2 : JSON} {b : Bool}
    (h : PU.update_property cm (.obj kvs) = .ok (j2, b)) :
    ∃ kvs2, j2 = .obj kvs2 ∧ PU.propObj cm kvs = .ok (kvs2, b) := by
  simp only [PU.update_property] at h
  split at h
  · cases h
    exact ⟨_, rfl, by assumption⟩
  · cases h

theorem updP_arr_inv {cm : PU.ColumnMap} {xs : List JSON} {j2 : JSON} {b : Bool}
    (h : PU.update_property cm (.arr xs) = .ok (j2, b)) :
    ∃ xs2, j2 = .arr xs2 ∧ PU.propList cm xs = .ok (xs2, b) := by
  simp only [PU.update_property] at h
  split at h
  · cases h
    exact ⟨_, rfl, by assumption⟩
  · cases h

theorem entList_cons_inv {tm : TableMap} {x : JSON} {xs : List JSON} {ys : List JSON} {b : Bool}
    (h : PU.entList tm (x :: xs) = .ok (ys, b)) :
    ∃ x2 b1 xs2 b2, PU.update_entity tm x = .ok (x2, b1) ∧ PU.entList tm xs = .ok (xs2, b2) ∧
      ys = x2 :: xs2 ∧ b = (b1 || b2) := by
  simp only [PU.entList] at h
  repeat' split at h
  all_goals cases h
  all_goals exact ⟨_, _, _, _, by assumption, by assumption, rfl, rfl⟩

theorem entObj_cons_inv {tm : TableMap} {k : String} {v : JSON} {rest ys : List (String × JSON)}
    {b : Bool} (h : PU.entObj tm ((k, v) :: rest) = .ok (ys, b)) :
    ∃ e2 b1 rest2 b2, PU.entEntry tm k v = .ok (e2, b1) ∧ PU.entObj tm rest = .ok (rest2, b2) ∧
      ys = e2 :: rest2 ∧ b = (b1 || b2) := by
  simp only [PU.entObj] at h
  repeat' split at h
  all_goals cases h
  all_goals exact ⟨_, _, _, _, by assumption, by assumption, rfl, rfl⟩

theorem propList_cons_inv {cm : PU.ColumnMap} {x : JSON} {xs ys : List JSON} {b : Bool}
    (h : PU.propList cm (x :: xs) = .ok (ys, b)) :
    ∃ x2 b1 xs2 b2, PU.update_property cm x = .ok (x2, b1) ∧ PU.propList cm xs = .ok (xs2, b2) ∧
      ys = x2 :: xs2 ∧ b = (b1 || b2) := by
  simp only [PU.propList] at h
  repeat' split at h
  all_goals cases h
  all_goals exact ⟨_, _, _, _, by assumption, by assumption, rfl, rfl⟩

theorem propObj_cons_inv {cm : PU.ColumnMap} {k : String} {v : JSON}
    {rest ys : List (String × JSON)} {b : Bool}
    (h : PU.propObj cm ((k, v) :: rest) = .ok (ys, b)) :
    ∃ e2 b1 rest2 b2, PU.propEntry cm k v = .ok (e2, b1) ∧ PU.propObj cm rest = .ok (rest2, b2) ∧
      ys = e2 :: rest2 ∧ b = (b1 || b2) := by
  simp only [PU.propObj] at h
  repeat' split at h
  all_goals cases h
  all_goals exact ⟨_, _, _, _, by assumption, by assumption, rfl, rfl⟩

theorem whereList_cons_inv {look : String → String → Option String} {fe cnd : JSON}
    {rest ys : List JSON} {b : Bool}
    (h : whereList look fe (cnd :: rest) = .ok (ys, b)) :
    ∃ c2 b1 rest2 b2, whereCond look fe cnd = .ok (c2, b1) ∧
      whereList look fe rest = .ok (rest2, b2) ∧ ys = c2 :: rest2 ∧ b = (b1 || b2) := by
  simp only [whereList] at h
  repeat' split at h
  all_goals cases h
  all_goals exact ⟨_, _, _, _, by assumption, by assumption, rfl, rfl⟩

theorem entEntitiesList_cons_inv {tm : TableMap} {e : JSON} {es ys : List JSON} {b : Bool}
    (h : PU.entEntitiesList tm (e :: es) = .ok (ys, b)) :
    ∃ e1 b1 e2 b2 es2 b3,
      PU.entNameStep tm e = .ok (e1, b1) ∧
      PU.update_entity tm e1 = .ok (e2, b2) ∧ PU.entEntitiesList tm es = .ok (es2, b3) ∧
      ys = e2 :: es2 ∧ b = (b1 || (b2 || b3)) := by
  simp only [PU.entEntitiesList] at h
  repeat' split at h
  all_goals cases h
  all_goals exact ⟨_, _, _, _, _, _, by assumption, by assumption, by assumption, rfl, rfl⟩

theorem updE_kind {tm : TableMap} {j j2 : JSON} {b : Bool}
    (h : PU.update_entity tm j = .ok (j2, b)) :
    (isStrJ j = true → j2 = j) ∧ (isStrJ j = false → isStrJ j2 = false) := by
  cases j with
  | obj kvs =>
    obtain ⟨kvs2, rfl, h2⟩ := updE_obj_inv h
    exact ⟨by simp [isStrJ], fun _ => rfl⟩
  | arr xs =>
    obtain ⟨xs2, rfl, h2⟩ := updE_arr_inv h
    exact ⟨by simp [isStrJ], fun _ => rfl⟩
  | str s =>
    have h2 := (@updE_leaf tm (.str s) rfl).symm.trans h
    cases h2
    exact ⟨fun _ => rfl, fun hcon => by simp [isStrJ] at hcon⟩
  | null =>
    have h2 := (@updE_leaf tm .null rfl).symm.trans h
    cases h2
    exact ⟨fun _ => rfl, fun _ => rfl⟩
  | bool c =>
    have h2 := (@updE_leaf tm (.bool c) rfl).symm.trans h
    cases h2
    exact ⟨fun _ => rfl, fun _ => rfl⟩
  | num c =>
    have h2 := (@updE_leaf tm (.num c) rfl).symm.trans h
    cases h2
    exact ⟨fun _ => rfl, fun _ => rfl⟩

theorem updP_kind {cm : PU.ColumnMap} {j j2 : JSON} {b : Bool}
    (h : PU.update_property cm j = .ok (j2, b)) :
    (isStrJ j = true → j2 = j) ∧ (isStrJ j = false → isStrJ j2 = false) := by
  cases j with
  | obj kvs =>
    obtain ⟨kvs2, rfl, h2⟩ := updP_obj_inv h
    exact ⟨by simp [isStrJ], fun _ => rfl⟩
  | arr xs =>
    obtain ⟨xs2, rfl, h2⟩ := updP_arr_inv h
    exact ⟨by simp [isStrJ], fun _ => rfl⟩
  | str s =>
    have h2 := (@updP_leaf cm (.str s) rfl).symm.trans h
    cases h2
    exact ⟨fun _ => rfl, fun hcon => by simp [isStrJ] at hcon⟩
  | null =>
    have h2 := (@updP_leaf cm .null rfl).symm.trans h
    cases h2
    exact ⟨fun _ => rfl, fun _ => rfl⟩
  | bool c =>
    have h2 := (@updP_leaf cm (.bool c) rfl).symm.trans h
    cases h2
    exact ⟨fun _ => rfl, fun _ => rfl⟩
  | num c =>
    have h2 := (@updP_leaf cm (.num c) rfl).symm.trans h
    cases h2
    exact ⟨fun _ => rfl, fun _ => rfl⟩

theorem entObj_cons_ok {tm : TableMap} {k : String} {v : JSON} {e2 : String × JSON} {b1 : Bool}
    {rest rest2 : List (String × JSON)} {b2 : Bool} (h1 : PU.entEntry tm k v = .ok (e2, b1))
    (h2 : PU.entObj tm rest = .ok (rest2, b2)) :
    PU.entObj tm ((k, v) :: rest) = .ok (e2 :: rest2, b1 || b2) := by
  simp only [PU.entObj, h1, h2]

theorem entList_cons_ok {tm : TableMap} {x x2 : JSON} {b1 : Bool} {xs xs2 : List JSON} {b2 : Bool}
    (h1 : PU.update_entity tm x = .ok (x2, b1)) (h2 : PU.entList tm xs = .ok (xs2, b2)) :
    PU.entList tm (x :: xs) = .ok (x2 :: xs2, b1 || b2) := by
  simp only [PU.entList, h1, h2]

theorem propObj_cons_ok {cm : PU.ColumnMap} {k : String} {v : JSON} {e2 : String × JSON}
    {b1 : Bool} {rest rest2 : List (String × JSON)} {b2 : Bool}
    (h1 : PU.propEntry cm k v = .ok (e2, b1)) (h2 : PU.propObj cm rest = .ok (rest2, b2)) :
    PU.propObj cm ((k, v) :: rest) = .ok (e2 :: rest2, b1 || b2) := by
  simp only [PU.propObj, h1, h2]

theorem propList_cons_ok {cm : PU.ColumnMap} {x x2 : JSON} {b1 : Bool} {xs xs2 : List JSON}
    {b2 : Bool} (h1 : PU.update_property cm x = .ok (x2, b1))
    (h2 : PU.propList cm xs = .ok (xs2, b2)) :
    PU.propList cm (x :: xs) = .ok (x2 :: xs2, b1 || b2) := by
  simp only [PU.propList, h1, h2]

theorem whereList_cons_ok {look : String → String → Option String} {fe cnd c2 : JSON} {b1 : Bool}
    {rest rest2 : List JSON} {b2 : Bool} (h1 : whereCond look fe cnd = .ok (c2, b1))
    (h2 : whereList look fe rest = .ok (rest2, b2)) :
    whereList look fe (cnd :: rest) = .ok (c2 :: rest2, b1 || b2) := by
  simp only [whereList, h1, h2]

theorem entEntitiesList_cons_ok {tm : TableMap} {e e1 : JSON} {b1 : Bool}
    {e2 : JSON} {b2 : Bool} {es es2 : List JSON} {b3 : Bool}
    (h1 : PU.entNameStep tm e = .ok (e1, b1))
    (h3 : PU.update_entity tm e1 = .ok (e2, b2))
    (h4 : PU.entEntitiesList tm es = .ok (es2, b3)) :
    PU.entEntitiesList tm (e :: es) = .ok (e2 :: es2, b1 || (b2 || b3)) := by
  simp only [PU.entEntitiesList, h4]
  split
  · rename_i e1x b1x heq
    obtain ⟨rfl, rfl⟩ : e1x = e1 ∧ b1x = b1 := by simpa using (h1.symm.trans heq).symm
    rw [h3]
  · rename_i u heq
    rw [h1] at heq
    cases heq

theorem entList_stab_cons {tm : TableMap} {x : JSON} {xs : List JSON}
    (h : PU.entList tm (x :: xs) = .ok (x :: xs, false)) :
    PU.update_entity tm x = .ok (x, false) ∧ PU.entList tm xs = .ok (xs, false) := by
  obtain ⟨x2, b1, xs2, b2, h1, h2, he, hb⟩ := entList_cons_inv h
  injection he with h3 h4
  subst h3
  subst h4
  have hb2 : b1 = false ∧ b2 = false := by simpa using hb.symm
  obtain ⟨rfl, rfl⟩ := hb2
  exact ⟨h1, h2⟩

theorem entObj_stab_cons {tm : TableMap} {k : String} {v : JSON} {rest : List (String × JSON)}
    (h : PU.entObj tm ((k, v) :: rest) = .ok ((k, v) :: rest, false)) :
    PU.entEntry tm k v = .ok ((k, v), false) ∧ PU.entObj tm rest = .ok (rest, false) := by
  obtain ⟨e2, b1, rest2, b2, h1, h2, he, hb⟩ := entObj_cons_inv h
  injection he with h3 h4
  subst h4
  have hb2 : b1 = false ∧ b2 = false := by simpa using hb.symm
  obtain ⟨rfl, rfl⟩ := hb2
  rw [← h3] at h1
  exact ⟨h1, h2⟩

theorem propList_stab_cons {cm : PU.ColumnMap} {x : JSON} {xs : List JSON}
    (h : PU.propList cm (x :: xs) = .ok (x :: xs, false)) :
    PU.update_property cm x = .ok (x, false) ∧ PU.propList cm xs = .ok (xs, false) := by
  obtain ⟨x2, b1, xs2, b2, h1, h2, he, hb⟩ := propList_cons_inv h
  injection he with h3 h4
  subst h3
  subst h4
  have hb2 : b1 = false ∧ b2 = false := by simpa using hb.symm
  obtain ⟨rfl, rfl⟩ := hb2
  exact ⟨h1, h2⟩

theorem entEntitiesList_stab_cons {tm : TableMap} {e : JSON} {es : List JSON}
    (h : PU.entEntitiesList tm (e :: es) = .ok (e :: es, false)) :
    PU.entNameStep tm e = .ok (e, false) ∧
    PU.update_entity tm e = .ok (e, false) ∧ PU.entEntitiesList tm es = .ok (es, false) := by
  obtain ⟨e1, b1, e2, b2, es2, b3, h1, h3, h4, he, hb⟩ := entEntitiesList_cons_inv h
  injection he with h5 h6
  subst h6
  have hb2 : b1 = false ∧ b2 = false ∧ b3 = false := by simpa using hb.symm
  obtain ⟨rfl, rfl, rfl⟩ := hb2
  have he1 : e1 = e := entNameStep_false_id h1
  subst he1
  rw [← h5] at h3
  exact ⟨h1, h3, h4⟩

theorem whereList_stab_cons {look : String → String → Option String} {fe cnd : JSON}
    {rest : List JSON} (h : whereList look fe (cnd :: rest) = .ok (cnd :: rest, false)) :
    whereCond look fe cnd = .ok (cnd, false) ∧ whereList look fe rest = .ok (rest, false) := by
  obtain ⟨c2, b1, rest2, b2, h1, h2, he, hb⟩ := whereList_cons_inv h
  injection he with h3 h4
  subst h3
  subst h4
  have hb2 : b1 = false ∧ b2 = false := by simpa using hb.symm
  obtain ⟨rfl, rfl⟩ := hb2
  exact ⟨h1, h2⟩

theorem entObj_stab_lookup {tm : TableMap} {kvs : List (String × JSON)} {k : String} {w : JSON}
    (h : PU.entObj tm kvs = .ok (kvs, false)) (hl : kvs.lookup k = some w) :
    PU.entEntry tm k w = .ok ((k, w), false) := by
  induction kvs with
  | nil => simp [List.lookup] at hl
  | cons p rest ih =>
    obtain ⟨k1, v1⟩ := p
    obtain ⟨hh, ht⟩ := entObj_stab_cons h
    simp only [List.lookup] at hl
    split at hl
    · rename_i hbeq
      cases hl
      have hkk : k = k1 := by simpa using hbeq
      subst hkk
      exact hh
    · exact ih ht hl

theorem entObj_setKey_stab {tm : TableMap} {kvs : List (String × JSON)} {key : String}
    {w2 : JSON} (h : PU.entObj tm kvs = .ok (kvs, false))
    (hw : PU.entEntry tm key w2 = .ok ((key, w2), false)) :
    PU.entObj tm (setKey kvs key w2) = .ok (setKey kvs key w2, false) := by
  induction kvs with
  | nil => simp [setKey, PU.entObj]
  | cons p rest ih =>
    obtain ⟨k1, v1⟩ := p
    obtain ⟨hh, ht⟩ := entObj_stab_cons h
    simp only [setKey]
    split
    · simpa using entObj_cons_ok hw ht
    · simpa using entObj_cons_ok hh (ih ht)

theorem updE_obj_ok {tm : TableMap} {kvs kvs2 : List (String × JSON)} {b : Bool}
    (h : PU.entObj tm kvs = .ok (kvs2, b)) :
    PU.update_entity tm (.obj kvs) = .ok (.obj kvs2, b) := by
  simp only [PU.update_entity, h]

theorem updE_arr_ok {tm : TableMap} {xs xs2 : List JSON} {b : Bool}
    (h : PU.entList tm xs = .ok (xs2, b)) :
    PU.update_entity tm (.arr xs) = .ok (.arr xs2, b) := by
  simp only [PU.update_entity, h]

theorem updP_obj_ok {cm : PU.ColumnMap} {kvs kvs2 : List (String × JSON)} {b : Bool}
    (h : PU.propObj cm kvs = .ok (kvs2, b)) :
    PU.update_property cm (.obj kvs) = .ok (.obj kvs2, b) := by
  simp only [PU.update_property, h]

theorem updP_arr_ok {cm : PU.ColumnMap} {xs xs2 : List JSON} {b : Bool}
    (h : PU.propList cm xs = .ok (xs2, b)) :
    PU.update_property cm (.arr xs) = .ok (.arr xs2, b) := by
  simp only [PU.update_property, h]

theorem entEntry_else_ok {tm : TableMap} {k : String} {v v2 : JSON} {b : Bool}
    (h1 : ¬ k = "Entity") (h2 : ¬ k = "entities") (h3 : ¬ k = "expression")
    (h : PU.update_entity tm v = .ok (v2, b)) :
    PU.entEntry tm k v = .ok ((k, v2), b) := by
  rw [PU.entEntry.eq_def, if_neg h1, if_neg h2, if_neg h3]
  simp only [h]

theorem entEntry_else_inv {tm : TableMap} {k : String} {v : JSON} {out : String × JSON}
    {b : Bool} (h1 : ¬ k = "Entity") (h2 : ¬ k = "entities") (h3 : ¬ k = "expression")
    (h : PU.entEntry tm k v = .ok (out, b)) :
    ∃ v2, out = (k, v2) ∧ PU.update_entity tm v = .ok (v2, b) := by
  rw [PU.entEntry.eq_def, if_neg h1, if_neg h2, if_neg h3] at h
  split at h
  · cases h
    exact ⟨_, rfl, by assumption⟩
  · cases h

theorem entObj_stab_lookup_obj {tm : TableMap} {kvs : List (String × JSON)} {key : String}
    {inner : List (String × JSON)} (h : PU.entObj tm kvs = .ok (kvs, false))
    (hl : kvs.lookup key = some (.obj inner)) (h1 : ¬ key = "Entity")
    (h2 : ¬ key = "entities") (h3 : ¬ key = "expression") :
    PU.entObj tm inner = .ok (inner, false) := by
  have he := entObj_stab_lookup h hl
  obtain ⟨v2, hout, hupd⟩ := entEntry_else_inv h1 h2 h3 he
  injection hout with ha hb
  rw [← hb] at hupd
  obtain ⟨kvs2, hj, hob⟩ := updE_obj_inv hupd
  injection hj with hk
  rw [← hk] at hob
  exact hob

theorem whereCond_stab {look : String → String → Option String} {tm : TableMap}
    {fe cond c2 : JSON} {b : Bool}
    (hlook : ∀ a p q, look a p = some q → look a q = none)
    (h : whereCond look fe cond = .ok (c2, b)) :
    whereCond look fe c2 = .ok (c2, false) ∧
    (noES cond = true → noES c2 = true) ∧
    (PU.update_entity tm cond = .ok (cond, false) → PU.update_entity tm c2 = .ok (c2, false)) := by
  have hcopy := h
  cases cond with
  | obj ckvs =>
    simp only [whereCond] at h
    repeat' split at h
    all_goals cases h
    all_goals try exact ⟨hcopy, fun hn => hn, fun hE => hE⟩
    rename_i j1 k1 hC j2 k2 hN j3 k3 hE2 j4 k4 hI j5 xk xrest hX j6 colk hCol j7 fej pj fes ps hP htr hha j8 newp hlk
    refine ⟨?_, ?_, ?_⟩
    · have l1 : (setKey ckvs "Condition" (.obj (setKey k1 "Not" (.obj (setKey k2 "Expression"
          (.obj (setKey k3 "In" (.obj (setKey k4 "Expressions" (.arr (.obj (setKey xk "Column"
          (.obj (setKey colk "Property" (.str newp)))) :: xrest))))))))))).lookup "Condition" =
          some (.obj (setKey k1 "Not" (.obj (setKey k2 "Expression" (.obj (setKey k3 "In"
          (.obj (setKey k4 "Expressions" (.arr (.obj (setKey xk "Column" (.obj (setKey colk
          "Property" (.str newp)))) :: xrest)))))))))) := lookup_setKey_self (by simp [hC])
      have l2 : (setKey k1 "Not" (.obj (setKey k2 "Expression" (.obj (setKey k3 "In"
          (.obj (setKey k4 "Expressions" (.arr (.obj (setKey xk "Column" (.obj (setKey colk
          "Property" (.str newp)))) :: xrest))))))))).lookup "Not" =
          some (.obj (setKey k2 "Expression" (.obj (setKey k3 "In" (.obj (setKey k4
          "Expressions" (.arr (.obj (setKey xk "Column" (.obj (setKey colk "Property"
          (.str newp)))) :: xrest)))))))) := lookup_setKey_self (by simp [hN])
      have l3 : (setKey k2 "Expression" (.obj (setKey k3 "In" (.obj (setKey k4 "Expressions"
          (.arr (.obj (setKey xk "Column" (.obj (setKey colk "Property" (.str newp)))) ::
          xrest))))))).lookup "Expression" =
          some (.obj (setKey k3 "In" (.obj (setKey k4 "Expressions" (.arr (.obj (setKey xk
          "Column" (.obj (setKey colk "Property" (.str newp)))) :: xrest)))))) :=
        lookup_setKey_self (by simp [hE2])
      have l4 : (setKey k3 "In" (.obj (setKey k4 "Expressions" (.arr (.obj (setKey xk "Column"
          (.obj (setKey colk "Property" (.str newp)))) :: xrest))))).lookup "In" =
          some (.obj (setKey k4 "Expressions" (.arr (.obj (setKey xk "Column" (.obj (setKey
          colk "Property" (.str newp)))) :: xrest)))) := lookup_setKey_self (by simp [hI])
      have l5 : (setKey k4 "Expressions" (.arr (.obj (setKey xk "Column" (.obj (setKey colk
          "Property" (.str newp)))) :: xrest))).lookup "Expressions" =
          some (.arr (.obj (setKey xk "Column" (.obj (setKey colk "Property" (.str newp)))) ::
          xrest)) := lookup_setKey_self (by simp [hX])
      have l6 : (setKey xk "Column" (.obj (setKey colk "Property" (.str newp)))).lookup
          "Column" = some (.obj (setKey colk "Property" (.str newp))) :=
        lookup_setKey_self (by simp [hCol])
      have l7 : (setKey colk "Property" (.str newp)).lookup "Property" = some (.str newp) :=
        lookup_setKey_self (by simp [hP])
      have hnone : look fes newp = none := hlook _ _ _ hlk
      by_cases hnp : truthy (.str newp) = true
      · simp [whereCond, l1, l2, l3, l4, l5, l6, l7, hnp, hashableJ, hnone]
      · simp [whereCond, l1, l2, l3, l4, l5, l6, l7, hnp]
    · intro hn
      have n0 : noESO ckvs = true := hn
      have n1 : noESO k1 = true := (noESO_lookup n0 hC).1
      have n2 : noESO k2 = true := (noESO_lookup n1 hN).1
      have n3 : noESO k3 = true := (noESO_lookup n2 hE2).1
      have n4 : noESO k4 = true := (noESO_lookup n3 hI).1
      have nxr : noESO xk = true ∧ noESL xrest = true := by
        have := (noESO_lookup n4 hX).1
        simp only [noES, noESL, Bool.and_eq_true] at this
        exact this
      have ncolk : noESO colk = true := (noESO_lookup nxr.1 hCol).1
      have m1 : noESO (setKey colk "Property" (.str newp)) = true :=
        noESO_setKey ncolk rfl (by simp [isStrJ])
      have m2 : noESO (setKey xk "Column" (.obj (setKey colk "Property" (.str newp)))) =
          true := noESO_setKey nxr.1 m1 (by simp [isStrJ])
      have m3 : noESL (.obj (setKey xk "Column" (.obj (setKey colk "Property"
          (.str newp)))) :: xrest) = true := by
        simp only [noESL, noES, Bool.and_eq_true]
        exact ⟨m2, nxr.2⟩
      have m4 : noESO (setKey k4 "Expressions" (.arr (.obj (setKey xk "Column" (.obj (setKey
          colk "Property" (.str newp)))) :: xrest))) = true :=
        noESO_setKey n4 m3 (by simp [isStrJ])
      have m5 : noESO (setKey k3 "In" (.obj (setKey k4 "Expressions" (.arr (.obj (setKey xk
          "Column" (.obj (setKey colk "Property" (.str newp)))) :: xrest))))) = true :=
        noESO_setKey n3 m4 (by simp [isStrJ])
      have m6 : noESO (setKey k2 "Expression" (.obj (setKey k3 "In" (.obj (setKey k4
          "Expressions" (.arr (.obj (setKey xk "Column" (.obj (setKey colk "Property"
          (.str newp)))) :: xrest))))))) = true := noESO_setKey n2 m5 (by simp [isStrJ])
      have m7 : noESO (setKey k1 "Not" (.obj (setKey k2 "Expression" (.obj (setKey k3 "In"
          (.obj (setKey k4 "Expressions" (.arr (.obj (setKey xk "Column" (.obj (setKey colk
          "Property" (.str newp)))) :: xrest)))))))))  = true :=
        noESO_setKey n1 m6 (by simp [isStrJ])
      exact noESO_setKey n0 m7 (by simp [isStrJ])
    · intro hE
      obtain ⟨kvs0, hj0, s0⟩ := updE_obj_inv hE
      injection hj0 with hk0
      rw [← hk0] at s0
      have s1 := entObj_stab_lookup_obj s0 hC (by decide) (by decide) (by decide)
      have s2 := entObj_stab_lookup_obj s1 hN (by decide) (by decide) (by decide)
      have s3 := entObj_stab_lookup_obj s2 hE2 (by decide) (by decide) (by decide)
      have s4 := entObj_stab_lookup_obj s3 hI (by decide) (by decide) (by decide)
      have sX := entObj_stab_lookup s4 hX
      obtain ⟨w2, hw2, hupdX⟩ :=
        @entEntry_else_inv tm "Expressions" _ _ _ (by decide) (by decide) (by decide) sX
      injection hw2 with hwk hwv
      rw [← hwv] at hupdX
      obtain ⟨xs2, hjx, sL⟩ := updE_arr_inv hupdX
      injection hjx with hxs
      rw [← hxs] at sL
      obtain ⟨sXk, sRest⟩ := entList_stab_cons sL
      obtain ⟨xkk, hjxk, sXkO⟩ := updE_obj_inv sXk
      injection hjxk with hxk
      rw [← hxk] at sXkO
      have sCol := entObj_stab_lookup_obj sXkO hCol (by decide) (by decide) (by decide)
      have u1 : PU.entObj tm (setKey colk "Property" (.str newp)) =
          .ok (setKey colk "Property" (.str newp), false) :=
        entObj_setKey_stab sCol
          (entEntry_else_ok (by decide) (by decide) (by decide) (updE_leaf rfl))
      have u2 : PU.entObj tm (setKey xk "Column" (.obj (setKey colk "Property"
          (.str newp)))) = .ok (setKey xk "Column" (.obj (setKey colk "Property"
          (.str newp))), false) :=
        entObj_setKey_stab sXkO
          (entEntry_else_ok (by decide) (by decide) (by decide) (updE_obj_ok u1))
      have u3 : PU.entList tm (.obj (setKey xk "Column" (.obj (setKey colk "Property"
          (.str newp)))) :: xrest) = .ok (.obj (setKey xk "Column" (.obj (setKey colk
          "Property" (.str newp)))) :: xrest, false) := by
        simpa using entList_cons_ok (updE_obj_ok u2) sRest
      have u4 : PU.entObj tm (setKey k4 "Expressions" (.arr (.obj (setKey xk "Column"
          (.obj (setKey colk "Property" (.str newp)))) :: xrest))) =
          .ok (setKey k4 "Expressions" (.arr (.obj (setKey xk "Column" (.obj (setKey colk
          "Property" (.str newp)))) :: xrest)), false) :=
        entObj_setKey_stab s4
          (entEntry_else_ok (by decide) (by decide) (by decide) (updE_arr_ok u3))
      have u5 := entObj_setKey_stab s3
        (@entEntry_else_ok tm "In" _ _ _ (by decide) (by decide) (by decide) (updE_obj_ok u4))
      have u6 := entObj_setKey_stab s2
        (@entEntry_else_ok tm "Expression" _ _ _ (by decide) (by decide) (by decide)
          (updE_obj_ok u5))
      have u7 := entObj_setKey_stab s1
        (@entEntry_else_ok tm "Not" _ _ _ (by decide) (by decide) (by decide)
          (updE_obj_ok u6))
      have u8 := entObj_setKey_stab s0
        (@entEntry_else_ok tm "Condition" _ _ _ (by decide) (by decide) (by decide)
          (updE_obj_ok u7))
      exact updE_obj_ok u8
  | str s2 =>
    simp only [whereCond] at h
    cases h
  | arr xs =>
    simp only [whereCond] at h
    cases h
  | null =>
    simp only [whereCond] at h
    cases h
  | bool c =>
    simp only [whereCond] at h
    cases h
  | num c =>
    simp only [whereCond] at h
    cases h

theorem whereList_stab {look : String → String → Option String} {tm : TableMap}
    {fe : JSON} {conds conds2 : List JSON} {b : Bool}
    (hlook : ∀ a p q, look a p = some q → look a q = none)
    (h : whereList look fe conds = .ok (conds2, b)) :
    whereList look fe conds2 = .ok (conds2, false) ∧
    (noESL conds = true → noESL conds2 = true) ∧
    (PU.entList tm conds = .ok (conds, false) → PU.entList tm conds2 = .ok (conds2, false)) := by
  induction conds generalizing conds2 b with
  | nil =>
    simp only [whereList] at h
    cases h
    exact ⟨rfl, fun hn => hn, fun hE => hE⟩
  | cons cnd rest ih =>
    obtain ⟨c2, b1, rest2, b2, h1, h2, he, hb⟩ := whereList_cons_inv h
    subst he
    obtain ⟨w1, w2, w3⟩ := @whereCond_stab look tm fe cnd c2 b1 hlook h1
    obtain ⟨l1, l2, l3⟩ := ih h2
    refine ⟨?_, ?_, ?_⟩
    · simpa using whereList_cons_ok w1 l1
    · intro hn
      simp only [noESL, Bool.and_eq_true] at hn ⊢
      exact ⟨w2 hn.1, l2 hn.2⟩
    · intro hE
      obtain ⟨e1, e2⟩ := entList_stab_cons hE
      simpa using entList_cons_ok (w3 e1) (l3 e2)

theorem filterProc_stab {look : String → String → Option String} {tm : TableMap}
    {k : String} {v : JSON} {out : String × JSON} {b : Bool}
    (hlook : ∀ a p q, look a p = some q → look a q = none)
    (h : filterProc look k v = .ok (out, b)) :
    out.1 = k ∧ filterProc look k out.2 = .ok (out, false) ∧
    (noES v = true → noES out.2 = true) ∧
    (PU.update_entity tm v = .ok (v, false) → PU.update_entity tm out.2 = .ok (out.2, false)) := by
  have hcopy := h
  cases v with
  | obj kvs =>
    simp only [filterProc] at h
    repeat' split at h
    all_goals cases h
    all_goals try exact ⟨rfl, hcopy, fun hn => hn, fun hE => hE⟩
    rename_i hcond j1 frest f0j f0k hFrom j2 fe hEnt j3 conds hWhere j4 conds2 hWL
    obtain ⟨w1, w2, w3⟩ := @whereList_stab look tm fe conds conds2 b hlook hWL
    refine ⟨rfl, ?_, ?_, ?_⟩
    · have lF : (setKey kvs "Where" (.arr conds2)).lookup "From" =
          some (.arr (.obj f0k :: frest)) := by
        rw [lookup_setKey_ne (by decide)]
        exact hFrom
      have lW : (setKey kvs "Where" (.arr conds2)).lookup "Where" = some (.arr conds2) :=
        lookup_setKey_self (by simp [hWhere])
      have hsk : setKey (setKey kvs "Where" (.arr conds2)) "Where" (.arr conds2) =
          setKey kvs "Where" (.arr conds2) := setKey_self_id lW
      simp [filterProc, lF, lW, hEnt, w1, hsk]
    · intro hn
      have n0 : noESO kvs = true := hn
      have nW : noESL conds = true := (noESO_lookup n0 hWhere).1
      exact noESO_setKey n0 (w2 nW) (by simp [isStrJ])
    · intro hE
      obtain ⟨kvs0, hj0, s0⟩ := updE_obj_inv hE
      injection hj0 with hk0
      rw [← hk0] at s0
      have sW := entObj_stab_lookup s0 hWhere
      obtain ⟨wx, hwx, hupdW⟩ := @entEntry_else_inv tm "Where" _ _ _ (by decide) (by decide)
        (by decide) sW
      injection hwx with hwk hwv
      rw [← hwv] at hupdW
      obtain ⟨ys, hjy, sL⟩ := updE_arr_inv hupdW
      injection hjy with hys
      rw [← hys] at sL
      exact updE_obj_ok (entObj_setKey_stab s0 (@entEntry_else_ok tm "Where" _ _ _ (by decide)
        (by decide) (by decide) (updE_arr_ok (w3 sL))))
  | str s2 =>
    simp only [filterProc] at h
    split at h
    · cases h
    · cases h
      exact ⟨rfl, hcopy, fun hn => hn, fun hE => hE⟩
  | arr xs =>
    simp only [filterProc] at h
    split at h
    · cases h
    · cases h
      exact ⟨rfl, hcopy, fun hn => hn, fun hE => hE⟩
  | null => simp [filterProc] at h
  | bool c => simp [filterProc] at h
  | num c => simp [filterProc] at h

theorem colMeasProc_stabPU {cm : PU.ColumnMap} {tm : TableMap} {k : String} {v : JSON}
    {out : String × JSON} {b : Bool}
    (hcm : ∀ t c c2, cm.lookup (t, c) = some c2 → cm.lookup (t, c2) = none)
    (h : PU.colMeasProc cm k v = .ok (out, b)) :
    out.1 = k ∧ PU.colMeasProc cm k out.2 = .ok (out, false) ∧
    (noES v = true → noES out.2 = true) ∧
    (PU.update_entity tm v = .ok (v, false) → PU.update_entity tm out.2 = .ok (out.2, false)) := by
  have hcopy := h
  cases v with
  | obj kvs =>
    simp only [PU.colMeasProc] at h
    repeat' split at h
    all_goals cases h
    all_goals try exact ⟨rfl, hcopy, fun hn => hn, fun hE => hE⟩
    rename_i cj1 k1 hgd1 cj2 k2 hgd2 htr hh oj1 oj2 e p hent hprop os1 newp hcm2
    have hexp : kvs.lookup "Expression" = some (.obj k1) := by
      cases hx : kvs.lookup "Expression" with
      | none =>
        rw [hx] at hgd1
        simp only [Option.getD, JSON.obj.injEq] at hgd1
        rw [← hgd1] at hgd2
        simp only [List.lookup, Option.getD, JSON.obj.injEq] at hgd2
        rw [← hgd2] at hent
        simp [List.lookup] at hent
      | some w =>
        rw [hx] at hgd1
        simp only [Option.getD] at hgd1
        rw [hgd1]
    have hsr : k1.lookup "SourceRef" = some (.obj k2) := by
      cases hx : k1.lookup "SourceRef" with
      | none =>
        rw [hx] at hgd2
        simp only [Option.getD, JSON.obj.injEq] at hgd2
        rw [← hgd2] at hent
        simp [List.lookup] at hent
      | some w =>
        rw [hx] at hgd2
        simp only [Option.getD] at hgd2
        rw [hgd2]
    have c1 : setKey k2 "Entity" (.str e) = k2 := setKey_self_id hent
    have c2 : setKey k1 "SourceRef" (.obj k2) = k1 := setKey_self_id hsr
    have c3 : setKey kvs "Expression" (.obj k1) = kvs := setKey_self_id hexp
    rw [c1, c2, c3]
    rw [hent, hprop] at htr
    simp only [truthyO, Bool.and_eq_true] at htr
    refine ⟨rfl, ?_, ?_, ?_⟩
    · have lE : (setKey kvs "Property" (.str newp)).lookup "Expression" = some (.obj k1) := by
        rw [lookup_setKey_ne (by decide)]
        exact hexp
      have lP : (setKey kvs "Property" (.str newp)).lookup "Property" = some (.str newp) :=
        lookup_setKey_self (by simp [hprop])
      have hnone : cm.lookup (e, newp) = none := hcm _ _ _ hcm2
      by_cases hnp : truthy (.str newp) = true
      · simp [PU.colMeasProc, lE, hsr, lP, hent, truthyO, hashableO, hashableJ, htr.1,
          hnp, hnone]
      · rw [Bool.not_eq_true] at hnp
        simp [PU.colMeasProc, lE, hsr, lP, hent, truthyO, hnp]
    · intro hn
      exact noESO_setKey hn rfl (by simp [isStrJ])
    · intro hE
      obtain ⟨kvs0, hj0, s0⟩ := updE_obj_inv hE
      injection hj0 with hk0
      rw [← hk0] at s0
      exact updE_obj_ok (entObj_setKey_stab s0 (@entEntry_else_ok tm "Property" _ _ _
        (by decide) (by decide) (by decide) (updE_leaf rfl)))
  | null => simp [PU.colMeasProc] at h
  | bool c => simp [PU.colMeasProc] at h
  | num c => simp [PU.colMeasProc] at h
  | str c => simp [PU.colMeasProc] at h
  | arr c => simp [PU.colMeasProc] at h

theorem entEntry_expr_ok {tm : TableMap} {v v2 : JSON} {b : Bool} (hs : isStrJ v = false)
    (h : PU.update_entity tm v = .ok (v2, b)) :
    PU.entEntry tm "expression" v = .ok (("expression", v2), b) := by
  rw [PU.entEntry.eq_def, if_neg (by decide), if_neg (by decide), if_pos rfl]
  cases v with
  | str s => simp [isStrJ] at hs
  | null => simp only [h]
  | bool c => simp only [h]
  | num c => simp only [h]
  | arr c => simp only [h]
  | obj c => simp only [h]

theorem entEntry_expr_inv {tm : TableMap} {v : JSON} {out : String × JSON} {b : Bool}
    (hs : isStrJ v = false) (h : PU.entEntry tm "expression" v = .ok (out, b)) :
    ∃ v2, out = ("expression", v2) ∧ PU.update_entity tm v = .ok (v2, b) := by
  rw [PU.entEntry.eq_def, if_neg (by decide), if_neg (by decide), if_pos rfl] at h
  cases v with
  | str s => simp [isStrJ] at hs
  | null =>
    simp only at h
    split at h
    · cases h
      exact ⟨_, rfl, by assumption⟩
    · cases h
  | bool c =>
    simp only at h
    split at h
    · cases h
      exact ⟨_, rfl, by assumption⟩
    · cases h
  | num c =>
    simp only at h
    split at h
    · cases h
      exact ⟨_, rfl, by assumption⟩
    · cases h
  | arr c =>
    simp only at h
    split at h
    · cases h
      exact ⟨_, rfl, by assumption⟩
    · cases h
  | obj c =>
    simp only at h
    split at h
    · cases h
      exact ⟨_, rfl, by assumption⟩
    · cases h

theorem propEntry_expr_ok {cm : PU.ColumnMap} {v v2 : JSON} {b : Bool} (hs : isStrJ v = false)
    (h : PU.update_property cm v = .ok (v2, b)) :
    PU.propEntry cm "expression" v = .ok (("expression", v2), b) := by
  rw [PU.propEntry.eq_def, if_neg (by decide), if_pos rfl]
  cases v with
  | str s => simp [isStrJ] at hs
  | null => simp only [h]
  | bool c => simp only [h]
  | num c => simp only [h]
  | arr c => simp only [h]
  | obj c => simp only [h]

theorem propEntry_expr_inv {cm : PU.ColumnMap} {v : JSON} {out : String × JSON} {b : Bool}
    (hs : isStrJ v = false) (h : PU.propEntry cm "expression" v = .ok (out, b)) :
    ∃ v2, out = ("expression", v2) ∧ PU.update_property cm v = .ok (v2, b) := by
  rw [PU.propEntry.eq_def, if_neg (by decide), if_pos rfl] at h
  cases v with
  | str s => simp [isStrJ] at hs
  | null =>
    simp only at h
    split at h
    · cases h
      exact ⟨_, rfl, by assumption⟩
    · cases h
  | bool c =>
    simp only at h
    split at h
    · cases h
      exact ⟨_, rfl, by assumption⟩
    · cases h
  | num c =>
    simp only at h
    split at h
    · cases h
      exact ⟨_, rfl, by assumption⟩
    · cases h
  | arr c =>
    simp only at h
    split at h
    · cases h
      exact ⟨_, rfl, by assumption⟩
    · cases h
  | obj c =>
    simp only at h
    split at h
    · cases h
      exact ⟨_, rfl, by assumption⟩
    · cases h

theorem propEntry_else_ok {cm : PU.ColumnMap} {k : String} {v v2 : JSON} {b : Bool}
    (h1 : ¬(k = "Column" ∨ k = "Measure")) (h2 : ¬ k = "expression") (h3 : ¬ k = "filter")
    (h : PU.update_property cm v = .ok (v2, b)) :
    PU.propEntry cm k v = .ok ((k, v2), b) := by
  rw [PU.propEntry.eq_def, if_neg h1, if_neg h2, if_neg h3]
  simp only [h]

theorem propEntry_else_inv {cm : PU.ColumnMap} {k : String} {v : JSON} {out : String × JSON}
    {b : Bool} (h1 : ¬(k = "Column" ∨ k = "Measure")) (h2 : ¬ k = "expression")
    (h3 : ¬ k = "filter") (h : PU.propEntry cm k v = .ok (out, b)) :
    ∃ v2, out = (k, v2) ∧ PU.update_property cm v = .ok (v2, b) := by
  rw [PU.propEntry.eq_def, if_neg h1, if_neg h2, if_neg h3] at h
  split at h
  · cases h
    exact ⟨_, rfl, by assumption⟩
  · cases h

theorem propEntry_colMeas_ok {cm : PU.ColumnMap} {k : String} {v : JSON} {r : String × JSON}
    {b : Bool} (h1 : k = "Column" ∨ k = "Measure") (h : PU.colMeasProc cm k v = .ok (r, b)) :
    PU.propEntry cm k v = .ok (r, b) := by
  rw [PU.propEntry.eq_def, if_pos h1]
  exact h

theorem propEntry_filter_ok {cm : PU.ColumnMap} {k : String} {v : JSON} {r : String × JSON}
    {b : Bool} (h1 : ¬(k = "Column" ∨ k = "Measure")) (h2 : ¬ k = "expression")
    (h3 : k = "filter") (h : filterProc (PU.cmLook cm) k v = .ok (r, b)) :
    PU.propEntry cm k v = .ok (r, b) := by
  rw [PU.propEntry.eq_def, if_neg h1, if_neg h2, if_pos h3]
  exact h

theorem any_key_eq {R : (String × JSON) → (String × JSON) → Prop}
    (hkey : ∀ p p2, R p p2 → p2.1 = p.1) {kvs kvs2 : List (String × JSON)}
    (hf : List.Forall₂ R kvs kvs2) (g : String → Bool) :
    kvs2.any (fun p => g p.1) = kvs.any (fun p => g p.1) := by
  induction hf with
  | nil => rfl
  | cons hrel hrest ih =>
    rename_i p p2 rest rest2
    simp only [List.any_cons, ih, hkey _ _ hrel]

theorem entCorr_lookup_leaf {tm : TableMap} {kvs1 kvs2 : List (String × JSON)} {key : String}
    {w : JSON} (hf : List.Forall₂ (EntCorr tm) kvs1 kvs2) (hl : kvs1.lookup key = some w)
    (hw : isContainer w = false) (h1 : ¬ key = "Entity") (h2 : ¬ key = "entities")
    (h3 : ¬ key = "expression") : kvs2.lookup key = some w := by
  obtain ⟨w2, hl2, hcorr⟩ := lookup_some_forall2 (fun p p2 hr => hr.1.symm) hf hl
  obtain ⟨hk, bb, hent⟩ := hcorr
  have hid := (entEntry_else_ok h1 h2 h3 (updE_leaf hw)).symm.trans hent
  rw [Except.ok.injEq, Prod.mk.injEq] at hid
  obtain ⟨hp, hb⟩ := hid
  rw [Prod.mk.injEq] at hp
  rw [hl2]
  exact congrArg some (show w2 = w from hp.2.symm)

theorem propCorr_lookup_leaf {cm : PU.ColumnMap} {kvs1 kvs2 : List (String × JSON)}
    {key : String} {w : JSON} (hf : List.Forall₂ (PropCorr cm) kvs1 kvs2)
    (hl : kvs1.lookup key = some w) (hw : isContainer w = false)
    (h1 : ¬(key = "Column" ∨ key = "Measure")) (h2 : ¬ key = "expression")
    (h3 : ¬ key = "filter") : kvs2.lookup key = some w := by
  obtain ⟨w2, hl2, hcorr⟩ := lookup_some_forall2 (fun p p2 hr => hr.1.symm) hf hl
  obtain ⟨hk, bb, hent⟩ := hcorr
  have hid := (propEntry_else_ok h1 h2 h3 (updP_leaf hw)).symm.trans hent
  rw [Except.ok.injEq, Prod.mk.injEq] at hid
  obtain ⟨hp, hb⟩ := hid
  rw [Prod.mk.injEq] at hp
  rw [hl2]
  exact congrArg some (show w2 = w from hp.2.symm)

theorem entNameStep_stab_obj {tm : TableMap} {kvs1 kvs2 : List (String × JSON)}
    (h : PU.entNameStep tm (.obj kvs1) = .ok (.obj kvs1, false))
    (hnone : kvs1.lookup "name" = none → kvs2.lookup "name" = none)
    (hleaf : ∀ w, kvs1.lookup "name" = some w → isContainer w = false →
      kvs2.lookup "name" = some w) :
    PU.entNameStep tm (.obj kvs2) = .ok (.obj kvs2, false) := by
  cases hx : kvs1.lookup "name" with
  | none => simp [PU.entNameStep, hnone hx]
  | some w =>
    cases w with
    | str s =>
      have hl2 := hleaf _ hx rfl
      simp only [PU.entNameStep, hx] at h
      split at h
      · rename_i nt hnt
        rw [Except.ok.injEq, Prod.mk.injEq] at h
        simp at h
      · rename_i hnt
        simp [PU.entNameStep, hl2, hnt]
    | null => simp [PU.entNameStep, hleaf _ hx rfl]
    | bool c => simp [PU.entNameStep, hleaf _ hx rfl]
    | num c => simp [PU.entNameStep, hleaf _ hx rfl]
    | arr c => simp [PU.entNameStep, hx] at h
    | obj c => simp [PU.entNameStep, hx] at h

theorem entNameStep_obj_facts {tm : TableMap} {kvsE : List (String × JSON)} {e1 : JSON}
    {b1 : Bool} (htm : ∀ a c, tm.lookup a = some c → tm.lookup c = none)
    (h : PU.entNameStep tm (.obj kvsE) = .ok (e1, b1)) :
    ∃ kvsE1, e1 = .obj kvsE1 ∧ jsizeO kvsE1 = jsizeO kvsE ∧
      (noESO kvsE = true → noESO kvsE1 = true) ∧
      PU.entNameStep tm (.obj kvsE1) = .ok (.obj kvsE1, false) := by
  simp only [PU.entNameStep] at h
  repeat' split at h
  all_goals cases h
  · rename_i j1 s hs j2 nt hnt
    refine ⟨setKey kvsE "name" (.str nt), rfl, PU.jsizeO_setKey_str hs, ?_, ?_⟩
    · intro hn
      exact noESO_setKey hn rfl (by simp)
    · have lnt : (setKey kvsE "name" (.str nt)).lookup "name" = some (.str nt) :=
        lookup_setKey_self (by simp [hs])
      simp [PU.entNameStep, lnt, htm _ _ hnt]
  · rename_i j1 s hs j2 hnt
    exact ⟨kvsE, rfl, rfl, fun hn => hn, by simp [PU.entNameStep, hs, hnt]⟩
  · rename_i j1 w hna hnob hns hs
    refine ⟨kvsE, rfl, rfl, fun hn => hn, ?_⟩
    cases w with
    | str t => exact (hns t rfl).elim
    | arr c => exact (hna c rfl).elim
    | obj c => exact (hnob c rfl).elim
    | null => simp [PU.entNameStep, hs]
    | bool c => simp [PU.entNameStep, hs]
    | num c => simp [PU.entNameStep, hs]
  · rename_i j1 hs
    exact ⟨kvsE, rfl, rfl, fun hn => hn, by simp [PU.entNameStep, hs]⟩

theorem ent_stab_all (tm : TableMap)
    (htm : ∀ a c, tm.lookup a = some c → tm.lookup c = none) : ∀ n : Nat,
    (∀ j j1 b, 2 * jsize j ≤ n → noES j = true → PU.update_entity tm j = .ok (j1, b) →
      noES j1 = true ∧ PU.update_entity tm j1 = .ok (j1, false)) ∧
    (∀ xs xs1 b, 2 * jsizeL xs ≤ n → noESL xs = true → PU.entList tm xs = .ok (xs1, b) →
      noESL xs1 = true ∧ PU.entList tm xs1 = .ok (xs1, false) ∧
      List.Forall₂ (fun x x2 => ∃ bb, PU.update_entity tm x = .ok (x2, bb)) xs xs1) ∧
    (∀ kvs kvs1 b, 2 * jsizeO kvs ≤ n → noESO kvs = true → PU.entObj tm kvs = .ok (kvs1, b) →
      noESO kvs1 = true ∧ PU.entObj tm kvs1 = .ok (kvs1, false) ∧
      List.Forall₂ (EntCorr tm) kvs kvs1) ∧
    (∀ k v out b, 2 * jsize v + 1 ≤ n → ((k == "expression") && isStrJ v) = false →
      noES v = true → PU.entEntry tm k v = .ok (out, b) →
      ∃ v2, out = (k, v2) ∧ ((k == "expression") && isStrJ v2) = false ∧ noES v2 = true ∧
        PU.entEntry tm k v2 = .ok ((k, v2), false)) ∧
    (∀ es es2 b, 2 * jsizeL es ≤ n → noESL es = true →
      PU.entEntitiesList tm es = .ok (es2, b) →
      noESL es2 = true ∧ PU.entEntitiesList tm es2 = .ok (es2, false)) := by
  intro n
  induction n with
  | zero =>
    refine ⟨?_, ?_, ?_, ?_, ?_⟩
    · intro j j1 b hn hno h
      have := jsize_pos j
      omega
    · intro xs xs1 b hn hno h
      cases xs with
      | nil =>
        simp only [PU.entList] at h
        cases h
        exact ⟨rfl, by simp [PU.entList], List.Forall₂.nil⟩
      | cons x rest =>
        simp only [jsizeL] at hn
        omega
    · intro kvs kvs1 b hn hno h
      cases kvs with
      | nil =>
        simp only [PU.entObj] at h
        cases h
        exact ⟨rfl, by simp [PU.entObj], List.Forall₂.nil⟩
      | cons pr rest =>
        obtain ⟨k, v⟩ := pr
        simp only [jsizeO] at hn
        omega
    · intro k v out b hn hkx hno h
      omega
    · intro es es2 b hn hno h
      cases es with
      | nil =>
        simp only [PU.entEntitiesList] at h
        cases h
        exact ⟨rfl, by simp [PU.entEntitiesList]⟩
      | cons e rest =>
        simp only [jsizeL] at hn
        omega
  | succ n ih =>
    obtain ⟨ihJ, ihL, ihO, ihE, ihEL⟩ := ih
    refine ⟨?_, ?_, ?_, ?_, ?_⟩
    · intro j j1 b hn hno h
      cases j with
      | obj kvs =>
        obtain ⟨kvs2, rfl, hob⟩ := updE_obj_inv h
        obtain ⟨hno2, hstab, hcorr⟩ := ihO kvs kvs2 b
          (by simp only [jsize] at hn; omega) hno hob
        exact ⟨hno2, updE_obj_ok hstab⟩
      | arr xs =>
        obtain ⟨xs2, rfl, hl⟩ := updE_arr_inv h
        obtain ⟨hno2, hstab, hcorr⟩ := ihL xs xs2 b
          (by simp only [jsize] at hn; omega) hno hl
        exact ⟨hno2, updE_arr_ok hstab⟩
      | str s =>
        have h2 := (@updE_leaf tm (.str s) rfl).symm.trans h
        cases h2
        exact ⟨hno, @updE_leaf tm (.str s) rfl⟩
      | null =>
        have h2 := (@updE_leaf tm .null rfl).symm.trans h
        cases h2
        exact ⟨hno, @updE_leaf tm .null rfl⟩
      | bool c =>
        have h2 := (@updE_leaf tm (.bool c) rfl).symm.trans h
        cases h2
        exact ⟨hno, @updE_leaf tm (.bool c) rfl⟩
      | num c =>
        have h2 := (@updE_leaf tm (.num c) rfl).symm.trans h
        cases h2
        exact ⟨hno, @updE_leaf tm (.num c) rfl⟩
    · intro xs xs1 b hn hno h
      cases xs with
      | nil =>
        simp only [PU.entList] at h
        cases h
        exact ⟨rfl, by simp [PU.entList], List.Forall₂.nil⟩
      | cons x rest =>
        obtain ⟨x2, b1, xs2, b2, h1, h2, rfl, rfl⟩ := entList_cons_inv h
        have hnoC : noES x = true ∧ noESL rest = true := by
          simpa [noESL, Bool.and_eq_true] using hno
        obtain ⟨hno1, hstab1⟩ := ihJ x x2 b1
          (by simp only [jsizeL] at hn; omega) hnoC.1 h1
        obtain ⟨hno2, hstab2, hcorr2⟩ := ihL rest xs2 b2
          (by simp only [jsizeL] at hn; omega) hnoC.2 h2
        refine ⟨by simp [noESL, hno1, hno2], ?_, List.Forall₂.cons ⟨b1, h1⟩ hcorr2⟩
        simpa using entList_cons_ok hstab1 hstab2
    · intro kvs kvs1 b hn hno h
      cases kvs with
      | nil =>
        simp only [PU.entObj] at h
        cases h
        exact ⟨rfl, by simp [PU.entObj], List.Forall₂.nil⟩
      | cons pr rest =>
        obtain ⟨k, v⟩ := pr
        obtain ⟨e2, b1, rest2, b2, h1, h2, rfl, rfl⟩ := entObj_cons_inv h
        have hnoC : ((k == "expression") && isStrJ v) = false ∧ noES v = true ∧
            noESO rest = true := by
          have := hno
          simp only [noESO, Bool.and_eq_true, Bool.not_eq_true'] at this
          exact ⟨this.1.1, this.1.2, this.2⟩
        obtain ⟨v2, rfl, hkx2, hno1, hstab1⟩ := ihE k v e2 b1
          (by simp only [jsizeO] at hn; omega) hnoC.1 hnoC.2.1 h1
        obtain ⟨hno2, hstab2, hcorr2⟩ := ihO rest rest2 b2
          (by simp only [jsizeO] at hn; omega) hnoC.2.2 h2
        refine ⟨?_, ?_, List.Forall₂.cons ⟨rfl, b1, h1⟩ hcorr2⟩
        · simp only [noESO, Bool.and_eq_true, Bool.not_eq_true']
          exact ⟨⟨hkx2, hno1⟩, hno2⟩
        · simpa using entObj_cons_ok hstab1 hstab2
    · intro k v out b hn hkx hno h
      by_cases hk1 : k = "Entity"
      · subst hk1
        rw [PU.entEntry.eq_def, if_pos rfl] at h
        cases v with
        | arr xs =>
          simp only at h
          cases h
        | obj kvs =>
          simp only at h
          cases h
        | str s =>
          simp only at h
          split at h
          · rename_i nt hnt
            cases h
            refine ⟨.str nt, rfl, by simp, rfl, ?_⟩
            rw [PU.entEntry.eq_def, if_pos rfl]
            simp [htm _ _ hnt]
          · rename_i hnt
            cases h
            refine ⟨.str s, rfl, by simp, rfl, ?_⟩
            rw [PU.entEntry.eq_def, if_pos rfl]
            simp [hnt]
        | null =>
          simp only at h
          cases h
          exact ⟨.null, rfl, by simp, rfl, by rw [PU.entEntry.eq_def, if_pos rfl]⟩
        | bool c =>
          simp only at h
          cases h
          exact ⟨.bool c, rfl, by simp, rfl, by rw [PU.entEntry.eq_def, if_pos rfl]⟩
        | num c =>
          simp only at h
          cases h
          exact ⟨.num c, rfl, by simp, rfl, by rw [PU.entEntry.eq_def, if_pos rfl]⟩
      · by_cases hk2 : k = "entities"
        · subst hk2
          rw [PU.entEntry.eq_def, if_neg (by decide), if_pos rfl] at h
          cases v with
          | arr es =>
            simp only at h
            split at h
            · cases h
              obtain ⟨hno2, hstab⟩ := ihEL es _ _
                (by simp only [jsize] at hn; omega) hno (by assumption)
              refine ⟨_, rfl, by simp, hno2, ?_⟩
              rw [PU.entEntry.eq_def, if_neg (by decide), if_pos rfl]
              simp [hstab]
            · cases h
          | str s =>
            simp only at h
            cases h
            exact ⟨.str s, rfl, by simp, hno,
              by rw [PU.entEntry.eq_def, if_neg (by decide), if_pos rfl]⟩
          | obj kvs2 =>
            simp only at h
            split at h
            · cases h
            · rename_i hany
              cases h
              refine ⟨.obj kvs2, rfl, by simp [isStrJ], hno, ?_⟩
              rw [PU.entEntry.eq_def, if_neg (by decide), if_pos rfl]
              simp [hany]
          | null =>
            simp only at h
            cases h
          | bool c =>
            simp only at h
            cases h
          | num c =>
            simp only at h
            cases h
        · by_cases hk3 : k = "expression"
          · subst hk3
            have hsv : isStrJ v = false := by simpa using hkx
            obtain ⟨v2, rfl, hupd⟩ := entEntry_expr_inv hsv h
            obtain ⟨hno2, hstab⟩ := ihJ v v2 b (by omega) hno hupd
            have hs2 : isStrJ v2 = false := (updE_kind hupd).2 hsv
            exact ⟨v2, rfl, by simp [hs2], hno2, entEntry_expr_ok hs2 hstab⟩
          · obtain ⟨v2, rfl, hupd⟩ := entEntry_else_inv hk1 hk2 hk3 h
            obtain ⟨hno2, hstab⟩ := ihJ v v2 b (by omega) hno hupd
            have hkb : (k == "expression") = false := beq_eq_false_iff_ne.mpr hk3
            exact ⟨v2, rfl, by simp [hkb], hno2, entEntry_else_ok hk1 hk2 hk3 hstab⟩
    · intro es es2 b hn hno h
      cases es with
      | nil =>
        simp only [PU.entEntitiesList] at h
        cases h
        exact ⟨rfl, by simp [PU.entEntitiesList]⟩
      | cons e rest =>
        obtain ⟨e1, b1, e2, b2, es2x, b3, h1, h3, h4, rfl, rfl⟩ :=
          entEntitiesList_cons_inv h
        have hnoC : noES e = true ∧ noESL rest = true := by
          simpa [noESL, Bool.and_eq_true] using hno
        obtain ⟨hnoR, hstabR⟩ := ihEL rest es2x b3
          (by simp only [jsizeL] at hn; omega) hnoC.2 h4
        cases e with
        | obj kvsE =>
          obtain ⟨kvsE1, rfl, hsz1, hno1i, hstep1⟩ := entNameStep_obj_facts htm h1
          have hno1 : noESO kvsE1 = true := hno1i hnoC.1
          obtain ⟨kvs2, rfl, hob⟩ := updE_obj_inv h3
          obtain ⟨hno2, hstab2, hcorr2⟩ := ihO kvsE1 kvs2 b2
            (by
              simp only [jsizeL, jsize] at hn
              rw [show 2 * jsizeO kvsE1 = 2 * jsizeO kvsE from by rw [hsz1]]
              omega) hno1 hob
          have hname2 : PU.entNameStep tm (.obj kvs2) = .ok (.obj kvs2, false) :=
            entNameStep_stab_obj hstep1
              (fun hnn => lookup_none_forall2 (fun p p2 hr => hr.1.symm) hcorr2 hnn)
              (fun w hw hwc => entCorr_lookup_leaf hcorr2 hw hwc (by decide) (by decide)
                (by decide))
          refine ⟨by simp [noESL, noES, hno2, hnoR], ?_⟩
          simpa using entEntitiesList_cons_ok hname2 (updE_obj_ok hstab2) hstabR
        | str s =>
          have h1c := h1
          simp only [PU.entNameStep] at h1c
          split at h1c
          · cases h1c
          · cases h1c
            have h3c := (@updE_leaf tm (.str s) rfl).symm.trans h3
            cases h3c
            refine ⟨by simp [noESL, hnoR, hnoC.1], ?_⟩
            have := entEntitiesList_cons_ok h1 (@updE_leaf tm (.str s) rfl) hstabR
            simpa using this
        | arr xs =>
          have h1c := h1
          simp only [PU.entNameStep] at h1c
          split at h1c
          · cases h1c
          · cases h1c
            obtain ⟨xs2, rfl, hl⟩ := updE_arr_inv h3
            obtain ⟨hno2, hstab2, hcorr2⟩ := ihL xs xs2 b2
              (by simp only [jsizeL, jsize] at hn ⊢; omega) hnoC.1 hl
            have hrel : List.Forall₂ (fun x x2 => (isStrJ x = true → x2 = x) ∧
                (isStrJ x = false → isStrJ x2 = false)) xs xs2 :=
              hcorr2.imp (fun x x2 hr => by
                obtain ⟨bb, hbb⟩ := hr
                exact updE_kind hbb)
            rename_i hmem
            have hmem2 : jmemStr "name" xs2 = false := by
              rw [jmemStr_eq_of_rel hrel]
              simpa using hmem
            refine ⟨by simp [noESL, noES, hno2, hnoR], ?_⟩
            have := entEntitiesList_cons_ok
              (show PU.entNameStep tm (.arr xs2) = .ok (.arr xs2, false) by
                simp [PU.entNameStep, hmem2])
              (updE_arr_ok hstab2) hstabR
            simpa using this
        | null => simp [PU.entNameStep] at h1
        | bool c => simp [PU.entNameStep] at h1
        | num c => simp [PU.entNameStep] at h1

theorem prop_stab_all (tm : TableMap) (cm : PU.ColumnMap)
    (htm : ∀ a c, tm.lookup a = some c → tm.lookup c = none)
    (hcm : ∀ t c c2, cm.lookup (t, c) = some c2 → cm.lookup (t, c2) = none) : ∀ n : Nat,
    (∀ j j2 b, 2 * jsize j ≤ n → noES j = true → PU.update_property cm j = .ok (j2, b) →
      noES j2 = true ∧ PU.update_property cm j2 = .ok (j2, false) ∧
      (PU.update_entity tm j = .ok (j, false) → PU.update_entity tm j2 = .ok (j2, false))) ∧
    (∀ xs xs2 b, 2 * jsizeL xs ≤ n → noESL xs = true → PU.propList cm xs = .ok (xs2, b) →
      noESL xs2 = true ∧ PU.propList cm xs2 = .ok (xs2, false) ∧
      (PU.entList tm xs = .ok (xs, false) → PU.entList tm xs2 = .ok (xs2, false)) ∧
      List.Forall₂ (fun x x2 => ∃ bb, PU.update_property cm x = .ok (x2, bb)) xs xs2) ∧
    (∀ kvs kvs2 b, 2 * jsizeO kvs ≤ n → noESO kvs = true → PU.propObj cm kvs = .ok (kvs2, b) →
      noESO kvs2 = true ∧ PU.propObj cm kvs2 = .ok (kvs2, false) ∧
      (PU.entObj tm kvs = .ok (kvs, false) → PU.entObj tm kvs2 = .ok (kvs2, false)) ∧
      List.Forall₂ (PropCorr cm) kvs kvs2) ∧
    (∀ k v out b, 2 * jsize v + 1 ≤ n → ((k == "expression") && isStrJ v) = false →
      noES v = true → PU.propEntry cm k v = .ok (out, b) →
      ∃ v2, out = (k, v2) ∧ ((k == "expression") && isStrJ v2) = false ∧ noES v2 = true ∧
        PU.propEntry cm k v2 = .ok ((k, v2), false) ∧
        (PU.entEntry tm k v = .ok ((k, v), false) →
          PU.entEntry tm k v2 = .ok ((k, v2), false))) ∧
    (∀ es es2 b, 2 * jsizeL es ≤ n → noESL es = true → PU.propList cm es = .ok (es2, b) →
      (PU.entEntitiesList tm es = .ok (es, false) →
        PU.entEntitiesList tm es2 = .ok (es2, false))) := by
  intro n
  induction n with
  | zero =>
    refine ⟨?_, ?_, ?_, ?_, ?_⟩
    · intro j j2 b hn hno h
      have := jsize_pos j
      omega
    · intro xs xs2 b hn hno h
      cases xs with
      | nil =>
        simp only [PU.propList] at h
        cases h
        exact ⟨rfl, by simp [PU.propList], fun hE => hE, List.Forall₂.nil⟩
      | cons x rest =>
        simp only [jsizeL] at hn
        omega
    · intro kvs kvs2 b hn hno h
      cases kvs with
      | nil =>
        simp only [PU.propObj] at h
        cases h
        exact ⟨rfl, by simp [PU.propObj], fun hE => hE, List.Forall₂.nil⟩
      | cons pr rest =>
        obtain ⟨k, v⟩ := pr
        simp only [jsizeO] at hn
        omega
    · intro k v out b hn hkx hno h
      omega
    · intro es es2 b hn hno h
      cases es with
      | nil =>
        simp only [PU.propList] at h
        cases h
        exact fun hE => hE
      | cons e rest =>
        simp only [jsizeL] at hn
        omega
  | succ n ih =>
    obtain ⟨ihJ, ihL, ihO, ihE, ihEL⟩ := ih
    refine ⟨?_, ?_, ?_, ?_, ?_⟩
    · intro j j2 b hn hno h
      cases j with
      | obj kvs =>
        obtain ⟨kvs2, rfl, hob⟩ := updP_obj_inv h
        obtain ⟨hno2, hstab, htr, hcorr⟩ := ihO kvs kvs2 b
          (by simp only [jsize] at hn; omega) hno hob
        refine ⟨hno2, updP_obj_ok hstab, ?_⟩
        intro hE
        obtain ⟨kvs0, hj0, s0⟩ := updE_obj_inv hE
        injection hj0 with hk0
        rw [← hk0] at s0
        exact updE_obj_ok (htr s0)
      | arr xs =>
        obtain ⟨xs2, rfl, hl⟩ := updP_arr_inv h
        obtain ⟨hno2, hstab, htr, hcorr⟩ := ihL xs xs2 b
          (by simp only [jsize] at hn; omega) hno hl
        refine ⟨hno2, updP_arr_ok hstab, ?_⟩
        intro hE
        obtain ⟨xs0, hj0, s0⟩ := updE_arr_inv hE
        injection hj0 with hk0
        rw [← hk0] at s0
        exact updE_arr_ok (htr s0)
      | str s =>
        have h2 := (@updP_leaf cm (.str s) rfl).symm.trans h
        cases h2
        exact ⟨hno, @updP_leaf cm (.str s) rfl, fun hE => hE⟩
      | null =>
        have h2 := (@updP_leaf cm .null rfl).symm.trans h
        cases h2
        exact ⟨hno, @updP_leaf cm .null rfl, fun hE => hE⟩
      | bool c =>
        have h2 := (@updP_leaf cm (.bool c) rfl).symm.trans h
        cases h2
        exact ⟨hno, @updP_leaf cm (.bool c) rfl, fun hE => hE⟩
      | num c =>
        have h2 := (@updP_leaf cm (.num c) rfl).symm.trans h
        cases h2
        exact ⟨hno, @updP_leaf cm (.num c) rfl, fun hE => hE⟩
    · intro xs xs2 b hn hno h
      cases xs with
      | nil =>
        simp only [PU.propList] at h
        cases h
        exact ⟨rfl, by simp [PU.propList], fun hE => hE, List.Forall₂.nil⟩
      | cons x rest =>
        obtain ⟨x2, b1, xs2x, b2, h1, h2, rfl, rfl⟩ := propList_cons_inv h
        have hnoC : noES x = true ∧ noESL rest = true := by
          simpa [noESL, Bool.and_eq_true] using hno
        obtain ⟨hno1, hstab1, htr1⟩ := ihJ x x2 b1
          (by simp only [jsizeL] at hn; omega) hnoC.1 h1
        obtain ⟨hno2, hstab2, htr2, hcorr2⟩ := ihL rest xs2x b2
          (by simp only [jsizeL] at hn; omega) hnoC.2 h2
        refine ⟨by simp [noESL, hno1, hno2], ?_, ?_, List.Forall₂.cons ⟨b1, h1⟩ hcorr2⟩
        · simpa using propList_cons_ok hstab1 hstab2
        · intro hE
          obtain ⟨e1, e2⟩ := entList_stab_cons hE
          simpa using entList_cons_ok (htr1 e1) (htr2 e2)
    · intro kvs kvs2 b hn hno h
      cases kvs with
      | nil =>
        simp only [PU.propObj] at h
        cases h
        exact ⟨rfl, by simp [PU.propObj], fun hE => hE, List.Forall₂.nil⟩
      | cons pr rest =>
        obtain ⟨k, v⟩ := pr
        obtain ⟨e2, b1, rest2, b2, h1, h2, rfl, rfl⟩ := propObj_cons_inv h
        have hnoC : ((k == "expression") && isStrJ v) = false ∧ noES v = true ∧
            noESO rest = true := by
          have := hno
          simp only [noESO, Bool.and_eq_true, Bool.not_eq_true'] at this
          exact ⟨this.1.1, this.1.2, this.2⟩
        obtain ⟨v2, rfl, hkx2, hno1, hstab1, htr1⟩ := ihE k v e2 b1
          (by simp only [jsizeO] at hn; omega) hnoC.1 hnoC.2.1 h1
        obtain ⟨hno2, hstab2, htr2, hcorr2⟩ := ihO rest rest2 b2
          (by simp only [jsizeO] at hn; omega) hnoC.2.2 h2
        refine ⟨?_, ?_, ?_, List.Forall₂.cons ⟨rfl, b1, h1⟩ hcorr2⟩
        · simp only [noESO, Bool.and_eq_true, Bool.not_eq_true']
          exact ⟨⟨hkx2, hno1⟩, hno2⟩
        · simpa using propObj_cons_ok hstab1 hstab2
        · intro hE
          obtain ⟨he1, he2⟩ := entObj_stab_cons hE
          simpa using entObj_cons_ok (htr1 he1) (htr2 he2)
    · intro k v out b hn hkx hno h
      by_cases hk1 : k = "Column" ∨ k = "Measure"
      · rw [PU.propEntry.eq_def, if_pos hk1] at h
        have hne1 : ¬ k = "Entity" := by rcases hk1 with rfl | rfl <;> decide
        have hne2 : ¬ k = "entities" := by rcases hk1 with rfl | rfl <;> decide
        have hne3 : ¬ k = "expression" := by rcases hk1 with rfl | rfl <;> decide
        obtain ⟨ho1, ho2, ho3, ho4⟩ := @colMeasProc_stabPU cm tm k v out b hcm h
        have hout : out = (k, out.2) := by rw [← ho1]
        refine ⟨out.2, hout, ?_, ho3 hno, ?_, ?_⟩
        · have : (k == "expression") = false := beq_eq_false_iff_ne.mpr hne3
          simp [this]
        · rw [hout] at ho2
          exact propEntry_colMeas_ok hk1 ho2
        · intro hEnt
          obtain ⟨w, hww, hupd⟩ := entEntry_else_inv hne1 hne2 hne3 hEnt
          injection hww with hw1 hw2
          rw [← hw2] at hupd
          exact entEntry_else_ok hne1 hne2 hne3 (ho4 hupd)
      · by_cases hk2 : k = "expression"
        · subst hk2
          have hsv : isStrJ v = false := by simpa using hkx
          rw [PU.propEntry.eq_def, if_neg hk1, if_pos rfl] at h
          have h2 : PU.propEntry cm "expression" v = .ok (out, b) := by
            rw [PU.propEntry.eq_def, if_neg hk1, if_pos rfl]
            exact h
          obtain ⟨v2, rfl, hupd⟩ := propEntry_expr_inv hsv h2
          obtain ⟨hno2, hstab, htr⟩ := ihJ v v2 b (by omega) hno hupd
          have hs2 : isStrJ v2 = false := (updP_kind hupd).2 hsv
          refine ⟨v2, rfl, by simp [hs2], hno2, propEntry_expr_ok hs2 hstab, ?_⟩
          intro hEnt
          obtain ⟨w, hww, hupdE⟩ := entEntry_expr_inv hsv hEnt
          injection hww with hw1 hw2
          rw [← hw2] at hupdE
          exact entEntry_expr_ok hs2 (htr hupdE)
        · by_cases hk3 : k = "filter"
          · subst hk3
            rw [PU.propEntry.eq_def, if_neg hk1, if_neg hk2, if_pos rfl] at h
            obtain ⟨ho1, ho2, ho3, ho4⟩ := @filterProc_stab (PU.cmLook cm) tm "filter" v out b
              (fun a p q hq => by
                simp only [PU.cmLook] at hq ⊢
                exact hcm _ _ _ hq) h
            have hout : out = ("filter", out.2) := by rw [← ho1]
            refine ⟨out.2, hout, ?_, ho3 hno, ?_, ?_⟩
            · have hfs : filterProc (PU.cmLook cm) "filter" out.2 = .ok (out, false) := ho2
              simp
            · rw [hout] at ho2
              exact propEntry_filter_ok hk1 hk2 rfl ho2
            · intro hEnt
              obtain ⟨w, hww, hupd⟩ := entEntry_else_inv (by decide) (by decide) (by decide)
                hEnt
              injection hww with hw1 hw2
              rw [← hw2] at hupd
              exact entEntry_else_ok (by decide) (by decide) (by decide) (ho4 hupd)
          · rw [PU.propEntry.eq_def, if_neg hk1, if_neg hk2, if_neg hk3] at h
            have h2 : PU.propEntry cm k v = .ok (out, b) := by
              rw [PU.propEntry.eq_def, if_neg hk1, if_neg hk2, if_neg hk3]
              exact h
            obtain ⟨v2, rfl, hupd⟩ := propEntry_else_inv hk1 hk2 hk3 h2
            obtain ⟨hno2, hstab, htr⟩ := ihJ v v2 b (by omega) hno hupd
            have hkb : (k == "expression") = false := beq_eq_false_iff_ne.mpr hk2
            refine ⟨v2, rfl, by simp [hkb], hno2, propEntry_else_ok hk1 hk2 hk3 hstab, ?_⟩
            intro hEnt
            by_cases hke1 : k = "Entity"
            · subst hke1
              cases v with
              | arr xs =>
                rw [PU.entEntry.eq_def, if_pos rfl] at hEnt
                simp only at hEnt
                cases hEnt
              | obj kvs =>
                rw [PU.entEntry.eq_def, if_pos rfl] at hEnt
                simp only at hEnt
                cases hEnt
              | str t =>
                have hv2 := (@updP_leaf cm (.str t) rfl).symm.trans hupd
                cases hv2
                exact hEnt
              | null =>
                have hv2 := (@updP_leaf cm .null rfl).symm.trans hupd
                cases hv2
                exact hEnt
              | bool c =>
                have hv2 := (@updP_leaf cm (.bool c) rfl).symm.trans hupd
                cases hv2
                exact hEnt
              | num c =>
                have hv2 := (@updP_leaf cm (.num c) rfl).symm.trans hupd
                cases hv2
                exact hEnt
            · by_cases hke2 : k = "entities"
              · subst hke2
                cases v with
                | arr es =>
                  rw [PU.entEntry.eq_def, if_neg (by decide), if_pos rfl] at hEnt
                  simp only at hEnt
                  split at hEnt
                  · rename_i es0 b0 heq0
                    rw [Except.ok.injEq, Prod.mk.injEq] at hEnt
                    obtain ⟨hp, hbf⟩ := hEnt
                    have hes0 : es0 = es := by
                      have h5 := congrArg Prod.snd hp
                      simp only at h5
                      injection h5 with hh
                    subst hes0
                    subst hbf
                    obtain ⟨xs2, rfl, hl⟩ := updP_arr_inv hupd
                    have htrE := ihEL es0 xs2 b (by simp only [jsize] at hn; omega) hno hl
                    rw [PU.entEntry.eq_def, if_neg (by decide), if_pos rfl]
                    simp [htrE heq0]
                  · cases hEnt
                | str t =>
                  have hv2 := (@updP_leaf cm (.str t) rfl).symm.trans hupd
                  cases hv2
                  exact hEnt
                | obj kvs0 =>
                  rw [PU.entEntry.eq_def, if_neg (by decide), if_pos rfl] at hEnt
                  simp only at hEnt
                  split at hEnt
                  · cases hEnt
                  · rename_i hany
                    cases hEnt
                    obtain ⟨kvs2x, rfl, hob⟩ := updP_obj_inv hupd
                    obtain ⟨hno2x, hstab2x, htr2x, hcorr2x⟩ := ihO kvs0 kvs2x b
                      (by simp only [jsize] at hn; omega) hno hob
                    rw [PU.entEntry.eq_def, if_neg (by decide), if_pos rfl]
                    have hany2 : (kvs2x.any (fun p => isSubstrS "name" p.1)) = false := by
                      rw [any_key_eq (fun p p2 hr => hr.1) hcorr2x]
                      simpa using hany
                    simp [hany2]
                | null =>
                  rw [PU.entEntry.eq_def, if_neg (by decide), if_pos rfl] at hEnt
                  simp only at hEnt
                  cases hEnt
                | bool c =>
                  rw [PU.entEntry.eq_def, if_neg (by decide), if_pos rfl] at hEnt
                  simp only at hEnt
                  cases hEnt
                | num c =>
                  rw [PU.entEntry.eq_def, if_neg (by decide), if_pos rfl] at hEnt
                  simp only at hEnt
                  cases hEnt
              · obtain ⟨w, hww, hupdE⟩ := entEntry_else_inv hke1 hke2 hk2 hEnt
                injection hww with hw1 hw2
                rw [← hw2] at hupdE
                exact entEntry_else_ok hke1 hke2 hk2 (htr hupdE)
    · intro es es2 b hn hno h
      cases es with
      | nil =>
        simp only [PU.propList] at h
        cases h
        exact fun hE => hE
      | cons e rest =>
        obtain ⟨e2, b1, es2x, b2, h1, h2, rfl, rfl⟩ := propList_cons_inv h
        have hnoC : noES e = true ∧ noESL rest = true := by
          simpa [noESL, Bool.and_eq_true] using hno
        intro hstabE
        obtain ⟨hn1, hu1, hrest⟩ := entEntitiesList_stab_cons hstabE
        have htrR := ihEL rest es2x b2 (by simp only [jsizeL] at hn; omega) hnoC.2 h2 hrest
        cases e with
        | obj kvsE =>
          obtain ⟨kvs2, rfl, hob⟩ := updP_obj_inv h1
          obtain ⟨hno2, hstab2, htr2, hcorr2⟩ := ihO kvsE kvs2 b1
            (by simp only [jsizeL, jsize] at hn; omega) hnoC.1 hob
          have hname2 : PU.entNameStep tm (.obj kvs2) = .ok (.obj kvs2, false) :=
            entNameStep_stab_obj hn1
              (fun hnn => lookup_none_forall2 (fun p p2 hr => hr.1.symm) hcorr2 hnn)
              (fun w hw hwc => propCorr_lookup_leaf hcorr2 hw hwc (by decide) (by decide)
                (by decide))
          obtain ⟨kvs0, hj0, s0⟩ := updE_obj_inv hu1
          injection hj0 with hk0
          rw [← hk0] at s0
          simpa using entEntitiesList_cons_ok hname2 (updE_obj_ok (htr2 s0)) htrR
        | str t =>
          have hv2 := (@updP_leaf cm (.str t) rfl).symm.trans h1
          cases hv2
          simpa using entEntitiesList_cons_ok hn1 (@updE_leaf tm (.str t) rfl) htrR
        | arr xs =>
          obtain ⟨xs2, rfl, hl⟩ := updP_arr_inv h1
          obtain ⟨hno2, hstab2, htrL, hcorr2⟩ := ihL xs xs2 b1
            (by simp only [jsizeL, jsize] at hn; omega) hnoC.1 hl
          have hrel : List.Forall₂ (fun x x2 => (isStrJ x = true → x2 = x) ∧
              (isStrJ x = false → isStrJ x2 = false)) xs xs2 :=
            hcorr2.imp (fun x x2 hr => by
              obtain ⟨bb, hbb⟩ := hr
              exact updP_kind hbb)
          have hn1c := hn1
          simp only [PU.entNameStep] at hn1c
          split at hn1c
          · cases hn1c
          · rename_i hmem
            have hmem2 : jmemStr "name" xs2 = false := by
              rw [jmemStr_eq_of_rel hrel]
              simpa using hmem
            obtain ⟨xs0, hj0, s0⟩ := updE_arr_inv hu1
            injection hj0 with hk0
            rw [← hk0] at s0
            simpa using entEntitiesList_cons_ok
              (show PU.entNameStep tm (.arr xs2) = .ok (.arr xs2, false) by
                simp [PU.entNameStep, hmem2])
              (updE_arr_ok (htrL s0)) htrR
        | null => simp [PU.entNameStep] at hn1
        | bool c => simp [PU.entNameStep] at hn1
        | num c => simp [PU.entNameStep] at hn1

/-- C6 (amended): the document rewrite of pbir_utils.py (entity pass then
property pass) applied a second time with the same maps reports
`changed = false` and returns the tree unchanged, provided (a) the tree
has no string-valued `expression` entries (so the regex rewriter is not
involved) and (b) the maps are non-chaining: no table-map value is again
a table-map key, and no column-map value is again a column under the same
table in the column map.  The unamended claim is refuted by the
counterexample. -/
theorem c6_second_application_identity (tm : TableMap) (cm : PU.ColumnMap)
    (d d1 d2 : JSON) (b1 b2 : Bool)
    (hno : noES d = true) (htm : tmNonChain tm = true) (hcm : cmNonChainPU cm = true)
    (hE : PU.update_entity tm d = .ok (d1, b1))
    (hP : PU.update_property cm d1 = .ok (d2, b2)) :
    PU.update_entity tm d2 = .ok (d2, false) ∧
    PU.update_property cm d2 = .ok (d2, false) := by
  have htm2 := tmNonChain_spec htm
  have hcm2 := cmNonChainPU_spec hcm
  obtain ⟨hno1, hstab1⟩ := (ent_stab_all tm htm2 (2 * jsize d)).1 d d1 b1 (le_refl _) hno hE
  obtain ⟨hno2, hstab2, htr⟩ := (prop_stab_all tm cm htm2 hcm2 (2 * jsize d1)).1 d1 d2 b2
    (le_refl _) hno1 hP
  exact ⟨htr hstab1, hstab2⟩

/-- Witness for the amended C6 at a concrete document: both passes of a
second application are the identity with a false flag. -/
theorem c6_second_application_identity_witness :
    PU.update_entity [("Sales", "Revenue")] (filterDoc "Revenue" "Total") =
      .ok (filterDoc "Revenue" "Total", false) ∧
    PU.update_property [(("Revenue", "Amount"), "Total")] (filterDoc "Revenue" "Total") =
      .ok (filterDoc "Revenue" "Total", false) :=
  c6_second_application_identity [("Sales", "Revenue")] [(("Revenue", "Amount"), "Total")]
    (filterDoc "Sales" "Amount") (filterDoc "Revenue" "Amount") (filterDoc "Revenue" "Total")
    true true (by decide) (by decide) (by decide)
    (by simp [filterDoc, whereEntry, PU.update_entity, PU.entObj, PU.entEntry, PU.entList,
      List.lookup])
    (by simp [filterDoc, whereEntry, PU.update_property, PU.propObj, PU.propEntry, filterProc,
      whereList, whereCond, PU.cmLook, PU.colMeasProc, setKey, List.lookup, truthy, hashableJ])

end PBIR
